import Mathlib

/-!
Verification development for the file-sync repository.

The C++ sources are shallowly embedded: byte strings (`std::string`,
raw byte buffers) become `List Nat` with each element `< 256`; machine
integers become `Nat`/`Int` with explicit truncation where the source
casts; fallible operations return `Option`/`Except`.

Codec-level integers (`fstree::wire`) are written in host byte order in
the source; both ends of every round trip here run on the same
little-endian host, so the codec is modelled little-endian.  The outer
framing lengths produced by the session layer use `htobe64`/`htobe32`
and are modelled big-endian.
-/

namespace FileSync

/-- Byte strings: lists of byte values. -/
abbrev ByteStr := List Nat

/-- All elements are genuine bytes. -/
def bytesOk (l : ByteStr) : Bool := l.all (· < 256)

/-- `k` little-endian bytes of `v` (truncating at `256^k`), as written by
`fstree::wire::write_u8/u32/u64` on a little-endian host. -/
def leBytes : Nat → Nat → List Nat
  | 0, _ => []
  | k + 1, v => v % 256 :: leBytes k (v / 256)

/-- `k` big-endian bytes of `v`, as produced by `htobe64`/`htobe32`. -/
def beBytes : Nat → Nat → List Nat
  | 0, _ => []
  | k + 1, v => beBytes k (v / 256) ++ [v % 256]

/-- Split off exactly `k` bytes of the input, as `asio::async_read` into a
`k`-byte buffer: fails when fewer than `k` bytes are available. -/
def takeExact (k : Nat) (bs : List Nat) : Option (List Nat × List Nat) :=
  if k ≤ bs.length then some (bs.take k, bs.drop k) else none

/-- Read a `k`-byte little-endian integer (wire codec `read_u8/u32/u64`). -/
def readLE (k : Nat) (bs : List Nat) : Option (Nat × List Nat) :=
  (takeExact k bs).map fun p => (p.1.foldr (fun b a => a * 256 + b) 0, p.2)

/-- Read a `k`-byte big-endian integer (`be64toh`/`be32toh` after a raw read). -/
def readBE (k : Nat) (bs : List Nat) : Option (Nat × List Nat) :=
  (takeExact k bs).map fun p => (p.1.foldl (fun a b => a * 256 + b) 0, p.2)

/-- `fstree::wire::write_string`: u32 length prefix then the raw bytes. -/
def writeString (s : ByteStr) : List Nat := leBytes 4 s.length ++ s

/-- `fstree::wire::read_string`: u32 length then that many bytes. -/
def readString (bs : List Nat) : Option (ByteStr × List Nat) := do
  let (len, rest) ← readLE 4 bs
  takeExact len rest

theorem leBytes_length (k v : Nat) : (leBytes k v).length = k := by
  induction k generalizing v with
  | zero => rfl
  | succ k ih => simp [leBytes, ih]

theorem beBytes_length (k v : Nat) : (beBytes k v).length = k := by
  induction k generalizing v with
  | zero => rfl
  | succ k ih => simp [beBytes, ih]

theorem takeExact_append (k : Nat) (l rest : List Nat) (h : l.length = k) :
    takeExact k (l ++ rest) = some (l, rest) := by
  subst h
  simp [takeExact, List.take_left, List.drop_left]

theorem leBytes_foldr (k v : Nat) :
    (leBytes k v).foldr (fun b a => a * 256 + b) 0 = v % 256 ^ k := by
  induction k generalizing v with
  | zero => simp [leBytes, Nat.mod_one]
  | succ k ih =>
      simp only [leBytes, List.foldr_cons, ih]
      have hsplit : v % 256 ^ (k + 1) = v % 256 + 256 * (v / 256 % 256 ^ k) := by
        rw [Nat.pow_succ']
        exact Nat.mod_mul
      omega

theorem readLE_leBytes (k v : Nat) (rest : List Nat) (h : v < 256 ^ k) :
    readLE k (leBytes k v ++ rest) = some (v, rest) := by
  rw [readLE, takeExact_append k _ _ (leBytes_length k v)]
  simp [leBytes_foldr, Nat.mod_eq_of_lt h]

theorem beBytes_foldl (k v a : Nat) :
    (beBytes k v).foldl (fun a b => a * 256 + b) a = a * 256 ^ k + v % 256 ^ k := by
  induction k generalizing v a with
  | zero => simp [beBytes, Nat.mod_one]
  | succ k ih =>
      simp only [beBytes, List.foldl_append, ih, List.foldl_cons, List.foldl_nil]
      have hsplit : v % 256 ^ (k + 1) = v % 256 + 256 * (v / 256 % 256 ^ k) := by
        rw [Nat.pow_succ']
        exact Nat.mod_mul
      have hpow : a * 256 ^ (k + 1) = a * 256 ^ k * 256 := by ring
      omega

theorem readBE_beBytes (k v : Nat) (rest : List Nat) (h : v < 256 ^ k) :
    readBE k (beBytes k v ++ rest) = some (v, rest) := by
  rw [readBE, takeExact_append k _ _ (beBytes_length k v)]
  simp [beBytes_foldl, Nat.mod_eq_of_lt h]

theorem readString_writeString (s : ByteStr) (rest : List Nat)
    (h : s.length < 2 ^ 32) :
    readString (writeString s ++ rest) = some (s, rest) := by
  have h' : s.length < 256 ^ 4 := by
    have : (256:Nat) ^ 4 = 2 ^ 32 := by norm_num
    omega
  unfold readString writeString
  rw [List.append_assoc, readLE_leBytes _ _ _ h']
  simp [takeExact_append s.length s rest rfl]

/-! ## Tree model (`fstree::Node`, `include/fstree/fstree.hpp`) -/

/-- `fstree::NodeType`. -/
inductive NodeType where
  | File
  | Directory
deriving DecidableEq, Repr

/-- `fstree::Hash`: a 32-byte SHA-256 digest, modelled as its byte list. -/
abbrev Hash := List Nat

/-- `fstree::Node`: `name`, `path` (relative to the tree root), `mtime`
(native tick count, a signed 64-bit value), and the tagged payload —
`FileMeta { size, file_hash }` for a file, the child vector for a
directory. -/
inductive Node where
  | file (name : ByteStr) (path : ByteStr) (mtime : Int) (size : Nat)
      (file_hash : Option Hash)
  | dir (name : ByteStr) (path : ByteStr) (mtime : Int) (children : List Node)

def Node.name : Node → ByteStr
  | .file n _ _ _ _ => n
  | .dir n _ _ _ => n

def Node.path : Node → ByteStr
  | .file _ p _ _ _ => p
  | .dir _ p _ _ => p

def Node.mtime : Node → Int
  | .file _ _ m _ _ => m
  | .dir _ _ m _ => m

def Node.type : Node → NodeType
  | .file _ _ _ _ _ => .File
  | .dir _ _ _ _ => .Directory

/-- C++ conversion of the signed `int64` tick count to the `uint64`
taken by `wire::write_u64` (reduction modulo `2^64`). -/
def int64ToU64 (t : Int) : Nat := (t % (2 ^ 64 : Int)).toNat

/-- C++ conversion of the `uint64` returned by `wire::read_u64` back to
the signed `int64` duration representation (two's complement). -/
def u64ToInt64 (n : Nat) : Int :=
  if n < 2 ^ 63 then (n : Int) else (n : Int) - 2 ^ 64

theorem u64ToInt64_int64ToU64 (t : Int) (h1 : -2 ^ 63 ≤ t) (h2 : t < 2 ^ 63) :
    u64ToInt64 (int64ToU64 t) = t := by
  unfold int64ToU64 u64ToInt64
  split <;> omega

theorem int64ToU64_lt (t : Int) : int64ToU64 t < 256 ^ 8 := by
  have : (256 : Nat) ^ 8 = 2 ^ 64 := by norm_num
  unfold int64ToU64
  omega

/-! ### Serialization (`fstree::serializeNode` / `fstree::deserializeNode`) -/

mutual

/-- `fstree::serializeNode`: `u8 type` (0 = File, 1 = Directory), `u64`
mtime tick count, `string name`, `string path`; for a file `u64 size`,
`u8 has_hash` and, when present, the 32 raw hash bytes; for a directory
`u32 child_count` followed by the serialized children. -/
def serializeNode : Node → List Nat
  | .file name path mtime size h =>
      leBytes 1 0 ++ leBytes 8 (int64ToU64 mtime) ++ writeString name ++
        writeString path ++ leBytes 8 size ++
        (match h with
          | some hv => leBytes 1 1 ++ hv
          | none => leBytes 1 0)
  | .dir name path mtime cs =>
      leBytes 1 1 ++ leBytes 8 (int64ToU64 mtime) ++ writeString name ++
        writeString path ++ leBytes 4 cs.length ++ serializeList cs

/-- The serialization of a child vector, child by child. -/
def serializeList : List Node → List Nat
  | [] => []
  | c :: cs => serializeNode c ++ serializeList cs

end

mutual

/-- `fstree::deserializeNode`.  The C++ recursion is bounded by the
stream content; the embedding carries explicit fuel, instantiated with
more than the input length at the top level so it never runs out on any
input the source can parse. -/
def desNodeF : Nat → List Nat → Option (Node × List Nat)
  | 0, _ => none
  | fuel + 1, bs => do
      let (tag, bs) ← readLE 1 bs
      let (mt, bs) ← readLE 8 bs
      let (name, bs) ← readString bs
      let (path, bs) ← readString bs
      if tag == 0 then do
        let (size, bs) ← readLE 8 bs
        let (hasHash, bs) ← readLE 1 bs
        if hasHash == 0 then
          some (Node.file name path (u64ToInt64 mt) size none, bs)
        else do
          let (hv, bs) ← takeExact 32 bs
          some (Node.file name path (u64ToInt64 mt) size (some hv), bs)
      else do
        let (count, bs) ← readLE 4 bs
        let (cs, bs) ← desListF fuel count bs
        some (Node.dir name path (u64ToInt64 mt) cs, bs)
termination_by fuel _ => (fuel, 0)

/-- Deserialize `count` consecutive children. -/
def desListF : Nat → Nat → List Nat → Option (List Node × List Nat)
  | _, 0, bs => some ([], bs)
  | fuel, k + 1, bs => do
      let (n, bs) ← desNodeF fuel bs
      let (ns, bs) ← desListF fuel k bs
      some (n :: ns, bs)
termination_by fuel k _ => (fuel, k + 1)

end

/-- `fstree::deserializeNode` on a whole buffer, with enough fuel for
any tree the buffer can encode (each node occupies at least one byte). -/
def deserializeNode (bs : List Nat) : Option (Node × List Nat) :=
  desNodeF (bs.length + 1) bs

mutual

/-- Well-formed node: every on-wire quantity fits the field that carries
it (byte values below 256, string lengths and child counts below `2^32`,
sizes below `2^64`, mtime in `int64` range, hashes of exactly 32 bytes). -/
def wfNode : Node → Bool
  | .file name path mtime size h =>
      bytesOk name && decide (name.length < 2 ^ 32) &&
      bytesOk path && decide (path.length < 2 ^ 32) &&
      decide (-2 ^ 63 ≤ mtime) && decide (mtime < 2 ^ 63) &&
      decide (size < 2 ^ 64) &&
      (match h with
        | none => true
        | some hv => decide (hv.length = 32) && bytesOk hv)
  | .dir name path mtime cs =>
      bytesOk name && decide (name.length < 2 ^ 32) &&
      bytesOk path && decide (path.length < 2 ^ 32) &&
      decide (-2 ^ 63 ≤ mtime) && decide (mtime < 2 ^ 63) &&
      decide (cs.length < 2 ^ 32) && wfList cs

def wfList : List Node → Bool
  | [] => true
  | c :: cs => wfNode c && wfList cs

end

mutual

/-- Number of nodes of a tree. -/
def countNodes : Node → Nat
  | .file _ _ _ _ _ => 1
  | .dir _ _ _ cs => 1 + countList cs

def countList : List Node → Nat
  | [] => 0
  | c :: cs => countNodes c + countList cs

end

theorem countNodes_pos (n : Node) : 1 ≤ countNodes n := by
  cases n <;> simp [countNodes]

mutual

theorem countNodes_le_len (n : Node) : countNodes n ≤ (serializeNode n).length := by
  cases n with
  | file name path mtime size h =>
      cases h <;> simp [countNodes, serializeNode, leBytes_length]
  | dir name path mtime cs =>
      have := countList_le_len cs
      simp only [countNodes, serializeNode, List.length_append, leBytes_length]
      omega

theorem countList_le_len (ns : List Node) :
    countList ns ≤ (serializeList ns).length := by
  cases ns with
  | nil => simp [countList, serializeList]
  | cons c cs =>
      have h1 := countNodes_le_len c
      have h2 := countList_le_len cs
      simp only [countList, serializeList, List.length_append]
      omega

end

/-- Round-trip of `deserializeNode ∘ serializeNode`, for every fuel large
enough; proved for nodes and child vectors simultaneously by strong
induction on the fuel. -/
theorem desF_serialize (fuel : Nat) :
    (∀ n rest, wfNode n = true → countNodes n ≤ fuel →
        desNodeF fuel (serializeNode n ++ rest) = some (n, rest)) ∧
    (∀ ns rest, wfList ns = true → countList ns ≤ fuel →
        desListF fuel ns.length (serializeList ns ++ rest) = some (ns, rest)) := by
  induction fuel using Nat.strong_induction_on with
  | _ fuel ih =>
    have h256 : (256 : Nat) ^ 8 = 2 ^ 64 := by norm_num
    have hnode : ∀ n rest, wfNode n = true → countNodes n ≤ fuel →
        desNodeF fuel (serializeNode n ++ rest) = some (n, rest) := by
      intro n rest hwf hc
      cases fuel with
      | zero => exact absurd hc (by have := countNodes_pos n; omega)
      | succ f =>
        cases n with
        | file name path mtime size h =>
          cases h with
          | none =>
            simp only [wfNode, Bool.and_eq_true, decide_eq_true_eq] at hwf
            obtain ⟨⟨⟨⟨⟨⟨⟨hn1, hn2⟩, hp1⟩, hp2⟩, hm1⟩, hm2⟩, hs⟩, -⟩ := hwf
            have hs' : size < 256 ^ 8 := by omega
            simp only [serializeNode, List.append_assoc, desNodeF]
            rw [readLE_leBytes 1 0 _ (by norm_num)]
            simp only [Option.bind_eq_bind, Option.some_bind]
            rw [readLE_leBytes 8 _ _ (int64ToU64_lt mtime)]
            simp only [Option.some_bind]
            rw [readString_writeString _ _ hn2]
            simp only [Option.some_bind]
            rw [readString_writeString _ _ hp2]
            simp only [Option.some_bind]
            simp only [beq_self_eq_true, if_true]
            rw [readLE_leBytes 8 _ _ hs']
            simp only [Option.some_bind]
            rw [readLE_leBytes 1 0 _ (by norm_num)]
            simp only [Option.some_bind, beq_self_eq_true, if_true]
            rw [u64ToInt64_int64ToU64 mtime hm1 hm2]
          | some hv =>
            simp only [wfNode, Bool.and_eq_true, decide_eq_true_eq] at hwf
            obtain ⟨⟨⟨⟨⟨⟨⟨hn1, hn2⟩, hp1⟩, hp2⟩, hm1⟩, hm2⟩, hs⟩, hv32, hvb⟩ := hwf
            have hs' : size < 256 ^ 8 := by omega
            simp only [serializeNode, List.append_assoc, desNodeF]
            rw [readLE_leBytes 1 0 _ (by norm_num)]
            simp only [Option.bind_eq_bind, Option.some_bind]
            rw [readLE_leBytes 8 _ _ (int64ToU64_lt mtime)]
            simp only [Option.some_bind]
            rw [readString_writeString _ _ hn2]
            simp only [Option.some_bind]
            rw [readString_writeString _ _ hp2]
            simp only [Option.some_bind]
            simp only [beq_self_eq_true, if_true]
            rw [readLE_leBytes 8 _ _ hs']
            simp only [Option.some_bind]
            rw [readLE_leBytes 1 1 _ (by norm_num)]
            simp only [Option.some_bind]
            norm_num
            rw [takeExact_append 32 hv _ hv32]
            simp only [Option.some_bind]
            rw [u64ToInt64_int64ToU64 mtime hm1 hm2]
        | dir name path mtime cs =>
          simp only [wfNode, Bool.and_eq_true, decide_eq_true_eq] at hwf
          obtain ⟨⟨⟨⟨⟨⟨⟨hn1, hn2⟩, hp1⟩, hp2⟩, hm1⟩, hm2⟩, hcnt⟩, hwl⟩ := hwf
          have hcount : countList cs ≤ f := by
            simp only [countNodes] at hc; omega
          have hlist := (ih f (by omega)).2 cs rest hwl hcount
          have hcnt' : cs.length < 256 ^ 4 := by
            have : (256 : Nat) ^ 4 = 2 ^ 32 := by norm_num
            omega
          simp only [serializeNode, List.append_assoc, desNodeF]
          rw [readLE_leBytes 1 1 _ (by norm_num)]
          simp only [Option.bind_eq_bind, Option.some_bind]
          rw [readLE_leBytes 8 _ _ (int64ToU64_lt mtime)]
          simp only [Option.some_bind]
          rw [readString_writeString _ _ hn2]
          simp only [Option.some_bind]
          rw [readString_writeString _ _ hp2]
          simp only [Option.some_bind]
          norm_num
          rw [readLE_leBytes 4 _ _ hcnt']
          simp only [Option.some_bind]
          rw [hlist]
          simp only [Option.some_bind]
          rw [u64ToInt64_int64ToU64 mtime hm1 hm2]
    refine ⟨hnode, ?_⟩
    intro ns
    induction ns with
    | nil =>
        intro rest _ _
        simp [serializeList, desListF]
    | cons c cs ihl =>
        intro rest hwf hc
        simp only [wfList, Bool.and_eq_true] at hwf
        have hc1 : countNodes c ≤ fuel := by
          simp only [countList] at hc
          have := countNodes_pos c
          omega
        have hc2 : countList cs ≤ fuel := by
          simp only [countList] at hc
          omega
        simp only [serializeList, List.append_assoc, List.length_cons, desListF]
        rw [hnode c _ hwf.1 hc1]
        simp only [Option.bind_eq_bind, Option.some_bind]
        rw [ihl _ hwf.2 hc2]
        simp only [Option.some_bind]

/-- C1: for every well-formed tree, deserializing the serialization
yields a tree equal in every on-wire field — type tag, mtime tick count,
name, path, file size, hash presence and value, child count and child
order.  `root_path` lives on `DirectoryTree`, not on `Node`, and is not
carried by `serializeNode`, so it is outside the round trip. -/
theorem C1_wire_round_trip (n : Node) (hwf : wfNode n = true) :
    deserializeNode (serializeNode n) = some (n, []) := by
  have hcount : countNodes n ≤ (serializeNode n).length + 1 := by
    have := countNodes_le_len n
    omega
  have h := (desF_serialize ((serializeNode n).length + 1)).1 n [] hwf hcount
  simpa [deserializeNode] using h

/-- A concrete well-formed tree: a root directory holding a hashed file,
an unhashed file and a subdirectory with one file. -/
def c1SampleTree : Node :=
  Node.dir [] [] 77
    [ Node.dir [100] [100] (-5)
        [Node.file [101] [100, 47, 101] 3 9 none]
    , Node.file [97] [97] 12 4 (some (List.replicate 32 7))
    , Node.file [98] [98] 0 0 none ]

/-- C1 witness: the round trip evaluated on `c1SampleTree`. -/
theorem C1_wire_round_trip_witness :
    wfNode c1SampleTree = true ∧
    deserializeNode (serializeNode c1SampleTree) = some (c1SampleTree, []) := by
  have hwf : wfNode c1SampleTree = true := by
    norm_num [c1SampleTree, wfNode, wfList, bytesOk]
  exact ⟨hwf, C1_wire_round_trip c1SampleTree hwf⟩

/-! ## Diff engine (`fstree::diffTree`, `src/unnamed/part_004`) -/

/-- `std::string operator<`: lexicographic byte-wise comparison, used by
the scanner's sort comparator and by the diff's merge. -/
def ltBytes : ByteStr → ByteStr → Bool
  | [], [] => false
  | [], _ :: _ => true
  | _ :: _, [] => false
  | a :: as, b :: bs =>
      if a < b then true else if b < a then false else ltBytes as bs

/-- `fstree::ChangeType`. -/
inductive ChangeType where
  | Added
  | Deleted
  | Modified
deriving DecidableEq, Repr

/-- `fstree::NodeSnapshot`: a flat copy of a node — relative path, type,
mtime; `size` stays 0 and `file_hash` stays empty for directories. -/
structure NodeSnapshot where
  path : ByteStr
  type : NodeType
  mtime : Int
  size : Nat
  file_hash : Option Hash
deriving DecidableEq, Repr

/-- The `NodeSnapshot(const Node&)` constructor. -/
def snap : Node → NodeSnapshot
  | .file _ p m sz h => ⟨p, .File, m, sz, h⟩
  | .dir _ p m _ => ⟨p, .Directory, m, 0, none⟩

/-- `fstree::NodeDiff`. -/
structure NodeDiff where
  type : ChangeType
  old_node : Option NodeSnapshot
  new_node : Option NodeSnapshot
deriving DecidableEq, Repr

def NodeDiff.added (n : Node) : NodeDiff := ⟨.Added, none, some (snap n)⟩

def NodeDiff.deleted (o : Node) : NodeDiff := ⟨.Deleted, some (snap o), none⟩

def NodeDiff.modified (o n : Node) : NodeDiff :=
  ⟨.Modified, some (snap o), some (snap n)⟩

/-- Child vector of a node.  `fstree::children` applies
`std::get<std::vector<...>>` and the diff only reaches it on directory
pairs; the file branch is dead code kept total with `[]`. -/
def Node.children : Node → List Node
  | .file _ _ _ _ _ => []
  | .dir _ _ _ cs => cs

/-- `FileMeta::size` of a file node (the diff reads it only on files). -/
def Node.fsize : Node → Nat
  | .file _ _ _ sz _ => sz
  | .dir _ _ _ _ => 0

/-- `FileMeta::file_hash` of a file node. -/
def Node.fhash : Node → Option Hash
  | .file _ _ _ _ h => h
  | .dir _ _ _ _ => none

/-- Replace the child vector (models the in-place mutation of children
during the diff's recursion). -/
def Node.withChildren : Node → List Node → Node
  | .file n p m sz h, _ => .file n p m sz h
  | .dir n p m _, cs => .dir n p m cs

/-- `fstree::Node::generate_hash(root)`: a no-op on directories and on
files whose hash is already cached; otherwise stores the SHA-256 of the
contents of `root / path`.  The filesystem is abstracted by the oracle
`hashOf root path`. -/
def generate_hash (hashOf : ByteStr → ByteStr → Hash) (root : ByteStr) :
    Node → Node
  | .file n p m sz h =>
      match h with
      | some hv => .file n p m sz (some hv)
      | none => .file n p m sz (some (hashOf root p))
  | .dir n p m cs => .dir n p m cs

theorem countList_children_lt (n : Node) :
    countList n.children + 1 ≤ countNodes n := by
  cases n <;> simp [Node.children, countNodes, countList] <;> omega

/-- The `diffLoop` lambda inside `fstree::diffTree`: a two-pointer merge
of the two sorted child vectors.  Returns the emitted records in
emission order together with the two child vectors as left behind by the
in-place hash population. -/
def diffChildren (hashOf : ByteStr → ByteStr → Hash) (oldRoot newRoot : ByteStr) :
    List Node → List Node → List NodeDiff × List Node × List Node
  | [], ys => (ys.map NodeDiff.added, [], ys)
  | x :: xs, [] => ((x :: xs).map NodeDiff.deleted, x :: xs, [])
  | x :: xs, y :: ys =>
      if x.path = y.path then
        if x.type ≠ y.type then
          let r := diffChildren hashOf oldRoot newRoot xs ys
          (NodeDiff.modified x y :: r.1, x :: r.2.1, y :: r.2.2)
        else if x.type = NodeType.File then
          if x.fsize = y.fsize then
            let x' := generate_hash hashOf oldRoot x
            let y' := generate_hash hashOf newRoot y
            let r := diffChildren hashOf oldRoot newRoot xs ys
            if x'.fhash ≠ y'.fhash then
              (NodeDiff.modified x' y' :: r.1, x' :: r.2.1, y' :: r.2.2)
            else
              (r.1, x' :: r.2.1, y' :: r.2.2)
          else
            let r := diffChildren hashOf oldRoot newRoot xs ys
            (NodeDiff.modified x y :: r.1, x :: r.2.1, y :: r.2.2)
        else
          let rc := diffChildren hashOf oldRoot newRoot x.children y.children
          let r := diffChildren hashOf oldRoot newRoot xs ys
          (rc.1 ++ r.1, x.withChildren rc.2.1 :: r.2.1,
            y.withChildren rc.2.2 :: r.2.2)
      else if ltBytes x.name y.name then
        let r := diffChildren hashOf oldRoot newRoot xs (y :: ys)
        (NodeDiff.deleted x :: r.1, x :: r.2.1, r.2.2)
      else
        let r := diffChildren hashOf oldRoot newRoot (x :: xs) ys
        (NodeDiff.added y :: r.1, r.2.1, y :: r.2.2)
termination_by xs ys => countList xs + countList ys
decreasing_by
  all_goals
    simp only [countList]
    have hx := countNodes_pos x
    have hy := countNodes_pos y
    have hcx := countList_children_lt x
    have hcy := countList_children_lt y
    omega

/-- `fstree::DirectoryTree`: absolute root path plus owned root node
(the path index is a derived lookup aid and is not needed by the claims). -/
structure DirectoryTree where
  root_path : ByteStr
  root : Node

/-- `fstree::diffTree`: run `diffLoop` on the two root nodes.  The C++
function returns the record vector and mutates the trees in place; the
embedding returns the records together with both post-diff child
vectors. -/
def diffTree (hashOf : ByteStr → ByteStr → Hash)
    (old_tree new_tree : DirectoryTree) :
    List NodeDiff × List Node × List Node :=
  diffChildren hashOf old_tree.root_path new_tree.root_path
    old_tree.root.children new_tree.root.children

theorem diffChildren_self (hashOf : ByteStr → ByteStr → Hash) (r : ByteStr) :
    ∀ k cs, countList cs ≤ k → (diffChildren hashOf r r cs cs).1 = [] := by
  intro k
  induction k using Nat.strong_induction_on with
  | _ k ih =>
    intro cs hk
    cases cs with
    | nil => simp [diffChildren]
    | cons x xs =>
      have hx := countNodes_pos x
      have hk1 : countList xs ≤ k - 1 := by
        simp only [countList] at hk
        omega
      have hklt : k - 1 < k := by
        simp only [countList] at hk
        omega
      have htail := ih (k - 1) hklt xs hk1
      cases x with
      | file n p m sz h =>
          simp [diffChildren, Node.path, Node.type, Node.fsize, htail]
      | dir n p m cs' =>
          have hch : countList cs' ≤ k - 1 := by
            simp only [countList, countNodes] at hk ⊢
            omega
          have hrec := ih (k - 1) hklt cs' hch
          simp [diffChildren, Node.path, Node.type, Node.children, hrec, htail]

/-- C2: for every directory tree `T`, `diffTree(T, T)` emits no records:
the merge pairs every entry with itself, equal sizes lead to identical
lazily-generated hashes, and directory pairs recurse without emission. -/
theorem C2_diff_self (hashOf : ByteStr → ByteStr → Hash) (t : DirectoryTree) :
    (diffTree hashOf t t).1 = [] :=
  diffChildren_self hashOf t.root_path (countList t.root.children)
    t.root.children le_rfl

/-- C3: when the current old and new entries have equal paths but
different node types, `diffLoop` emits exactly one `Modified` record
pairing the two entries, advances past both, and recurses into neither
entry's children — both nodes pass through untouched. -/
theorem C3_type_change (hashOf : ByteStr → ByteStr → Hash) (ro rn : ByteStr)
    (x y : Node) (xs ys : List Node)
    (hpath : x.path = y.path) (htype : x.type ≠ y.type) :
    diffChildren hashOf ro rn (x :: xs) (y :: ys) =
      (NodeDiff.modified x y :: (diffChildren hashOf ro rn xs ys).1,
        x :: (diffChildren hashOf ro rn xs ys).2.1,
        y :: (diffChildren hashOf ro rn xs ys).2.2) := by
  simp only [diffChildren]
  rw [if_pos hpath, if_pos htype]

/-- Concrete type change: old `x` is an empty regular file, new `x` is a
directory containing a file `y`. -/
def c3OldNode : Node := Node.file [120] [120] 1 0 none

def c3NewNode : Node :=
  Node.dir [120] [120] 2 [Node.file [121] [120, 47, 121] 3 5 none]

/-- C3 witness: the step evaluated on the type-changed pair; the
directory's child produces no record and no recursion happens. -/
theorem C3_type_change_witness :
    diffChildren (fun _ _ => List.replicate 32 0) [] [] [c3OldNode] [c3NewNode] =
      ([NodeDiff.modified c3OldNode c3NewNode], [c3OldNode], [c3NewNode]) := by
  have h := C3_type_change (fun _ _ => List.replicate 32 0) [] []
    c3OldNode c3NewNode [] []
    (by simp [c3OldNode, c3NewNode, Node.path])
    (by simp [c3OldNode, c3NewNode, Node.type])
  simpa [diffChildren] using h

/-! ### Hash laziness (C4) -/

mutual

/-- A node together with all of its descendants. -/
def nodesOf : Node → List Node
  | .file n p m sz h => [.file n p m sz h]
  | .dir n p m cs => .dir n p m cs :: forestNodes cs

/-- All nodes of a child vector. -/
def forestNodes : List Node → List Node
  | [] => []
  | c :: cs => nodesOf c ++ forestNodes cs

end

/-- No node of the vector carries a populated `file_hash` (the state of
every freshly scanned or freshly deserialized hash-free tree). -/
def noHashes (l : List Node) : Prop := ∀ n ∈ forestNodes l, n.fhash = none

/-- Every node of `l` with a populated hash is a file that the merge
paired with a same-path file of equal size in the other tree. -/
def hashLazy (other l : List Node) : Prop :=
  ∀ n ∈ forestNodes l, ∀ h, n.fhash = some h →
    n.type = NodeType.File ∧
    ∃ m ∈ forestNodes other,
      m.type = NodeType.File ∧ m.path = n.path ∧ m.fsize = n.fsize

theorem generate_hash_path (hashOf : ByteStr → ByteStr → Hash) (r : ByteStr)
    (n : Node) : (generate_hash hashOf r n).path = n.path := by
  cases n with
  | file nm p m sz h => cases h <;> simp [generate_hash, Node.path]
  | dir nm p m cs => simp [generate_hash, Node.path]

theorem generate_hash_fsize (hashOf : ByteStr → ByteStr → Hash) (r : ByteStr)
    (n : Node) : (generate_hash hashOf r n).fsize = n.fsize := by
  cases n with
  | file nm p m sz h => cases h <;> simp [generate_hash, Node.fsize]
  | dir nm p m cs => simp [generate_hash, Node.fsize]

theorem generate_hash_type (hashOf : ByteStr → ByteStr → Hash) (r : ByteStr)
    (n : Node) : (generate_hash hashOf r n).type = n.type := by
  cases n with
  | file nm p m sz h => cases h <;> simp [generate_hash, Node.type]
  | dir nm p m cs => simp [generate_hash, Node.type]

theorem nodesOf_eq_of_file (n : Node) (h : n.type = NodeType.File) :
    nodesOf n = [n] := by
  cases n with
  | file nm p m sz hh => simp [nodesOf]
  | dir nm p m cs => simp [Node.type] at h

theorem fhash_none_of_dir (n : Node) (h : n.type = NodeType.Directory) :
    n.fhash = none := by
  cases n with
  | file nm p m sz hh => simp [Node.type] at h
  | dir nm p m cs => simp [Node.fhash]

theorem type_dir_of_not_file (n : Node) (h : ¬n.type = NodeType.File) :
    n.type = NodeType.Directory := by
  cases n with
  | file nm p m sz hh => simp [Node.type] at h
  | dir nm p m cs => simp [Node.type]

theorem withChildren_type (x : Node) (cs : List Node) :
    (x.withChildren cs).type = x.type := by
  cases x <;> simp [Node.withChildren, Node.type]

theorem nodesOf_withChildren_of_dir (x : Node) (cs : List Node)
    (h : x.type = NodeType.Directory) :
    nodesOf (x.withChildren cs) = x.withChildren cs :: forestNodes cs := by
  cases x with
  | file nm p m sz hh => simp [Node.type] at h
  | dir nm p m cs0 => simp [Node.withChildren, nodesOf]

theorem noHashes_cons_head (x : Node) (xs : List Node)
    (h : noHashes (x :: xs)) : ∀ n ∈ nodesOf x, n.fhash = none := by
  intro n hn
  exact h n (by simp [forestNodes]; exact Or.inl hn)

theorem noHashes_cons_tail (x : Node) (xs : List Node)
    (h : noHashes (x :: xs)) : noHashes xs := by
  intro n hn
  exact h n (by simp [forestNodes]; exact Or.inr hn)

theorem noHashes_children (x : Node) (xs : List Node)
    (h : noHashes (x :: xs)) : noHashes x.children := by
  intro n hn
  apply noHashes_cons_head x xs h
  cases x with
  | file nm p m sz hh => simp [Node.children, forestNodes] at hn
  | dir nm p m cs => simpa [Node.children, nodesOf] using Or.inr hn

theorem self_mem_nodesOf (n : Node) : n ∈ nodesOf n := by
  cases n <;> simp [nodesOf]

theorem diffChildren_file_eq_size (hashOf : ByteStr → ByteStr → Hash)
    (ro rn : ByteStr) (x y : Node) (xs ys : List Node)
    (hp : x.path = y.path) (ht : x.type = y.type)
    (htf : x.type = NodeType.File) (hsz : x.fsize = y.fsize) :
    diffChildren hashOf ro rn (x :: xs) (y :: ys) =
      ((if (generate_hash hashOf ro x).fhash ≠ (generate_hash hashOf rn y).fhash
        then NodeDiff.modified (generate_hash hashOf ro x)
          (generate_hash hashOf rn y) :: (diffChildren hashOf ro rn xs ys).1
        else (diffChildren hashOf ro rn xs ys).1),
        generate_hash hashOf ro x :: (diffChildren hashOf ro rn xs ys).2.1,
        generate_hash hashOf rn y :: (diffChildren hashOf ro rn xs ys).2.2) := by
  simp only [diffChildren]
  rw [if_pos hp, if_neg (by simp [ht]), if_pos htf, if_pos hsz]
  by_cases hne : (generate_hash hashOf ro x).fhash ≠ (generate_hash hashOf rn y).fhash
  · rw [if_pos hne, if_pos hne]
  · rw [if_neg hne, if_neg hne]

theorem diffChildren_file_ne_size (hashOf : ByteStr → ByteStr → Hash)
    (ro rn : ByteStr) (x y : Node) (xs ys : List Node)
    (hp : x.path = y.path) (ht : x.type = y.type)
    (htf : x.type = NodeType.File) (hsz : x.fsize ≠ y.fsize) :
    diffChildren hashOf ro rn (x :: xs) (y :: ys) =
      (NodeDiff.modified x y :: (diffChildren hashOf ro rn xs ys).1,
        x :: (diffChildren hashOf ro rn xs ys).2.1,
        y :: (diffChildren hashOf ro rn xs ys).2.2) := by
  simp only [diffChildren]
  rw [if_pos hp, if_neg (by simp [ht]), if_pos htf, if_neg hsz]

theorem diffChildren_dir_pair (hashOf : ByteStr → ByteStr → Hash)
    (ro rn : ByteStr) (x y : Node) (xs ys : List Node)
    (hp : x.path = y.path) (ht : x.type = y.type)
    (htd : ¬x.type = NodeType.File) :
    diffChildren hashOf ro rn (x :: xs) (y :: ys) =
      ((diffChildren hashOf ro rn x.children y.children).1 ++
          (diffChildren hashOf ro rn xs ys).1,
        x.withChildren (diffChildren hashOf ro rn x.children y.children).2.1 ::
          (diffChildren hashOf ro rn xs ys).2.1,
        y.withChildren (diffChildren hashOf ro rn x.children y.children).2.2 ::
          (diffChildren hashOf ro rn xs ys).2.2) := by
  simp only [diffChildren]
  rw [if_pos hp, if_neg (by simp [ht]), if_neg htd]

theorem diffChildren_del_step (hashOf : ByteStr → ByteStr → Hash)
    (ro rn : ByteStr) (x y : Node) (xs ys : List Node)
    (hp : ¬x.path = y.path) (hlt : ltBytes x.name y.name = true) :
    diffChildren hashOf ro rn (x :: xs) (y :: ys) =
      (NodeDiff.deleted x :: (diffChildren hashOf ro rn xs (y :: ys)).1,
        x :: (diffChildren hashOf ro rn xs (y :: ys)).2.1,
        (diffChildren hashOf ro rn xs (y :: ys)).2.2) := by
  simp only [diffChildren]
  rw [if_neg hp, if_pos hlt]

theorem diffChildren_add_step (hashOf : ByteStr → ByteStr → Hash)
    (ro rn : ByteStr) (x y : Node) (xs ys : List Node)
    (hp : ¬x.path = y.path) (hlt : ¬ltBytes x.name y.name = true) :
    diffChildren hashOf ro rn (x :: xs) (y :: ys) =
      (NodeDiff.added y :: (diffChildren hashOf ro rn (x :: xs) ys).1,
        (diffChildren hashOf ro rn (x :: xs) ys).2.1,
        y :: (diffChildren hashOf ro rn (x :: xs) ys).2.2) := by
  simp only [diffChildren]
  rw [if_neg hp, if_neg (by simpa using hlt)]

theorem diffChildren_lazy (hashOf : ByteStr → ByteStr → Hash) (ro rn : ByteStr) :
    ∀ k xs ys, countList xs + countList ys ≤ k → noHashes xs → noHashes ys →
      hashLazy (diffChildren hashOf ro rn xs ys).2.2
          (diffChildren hashOf ro rn xs ys).2.1 ∧
      hashLazy (diffChildren hashOf ro rn xs ys).2.1
          (diffChildren hashOf ro rn xs ys).2.2 := by
  intro k
  induction k using Nat.strong_induction_on with
  | _ k ih =>
    intro xs ys hk hxs hys
    cases xs with
    | nil =>
        constructor
        · intro n hn
          simp [diffChildren, forestNodes] at hn
        · intro n hn h hh
          simp only [diffChildren] at hn
          rw [hys n hn] at hh
          simp at hh
    | cons x xs' =>
      cases ys with
      | nil =>
          constructor
          · intro n hn h hh
            simp only [diffChildren] at hn
            rw [hxs n hn] at hh
            simp at hh
          · intro n hn
            simp [diffChildren, forestNodes] at hn
      | cons y ys' =>
        have hxpos := countNodes_pos x
        have hypos := countNodes_pos y
        have hcx := countList_children_lt x
        have hcy := countList_children_lt y
        simp only [countList] at hk
        have hxs' := noHashes_cons_tail x xs' hxs
        have hys' := noHashes_cons_tail y ys' hys
        have hxhead := noHashes_cons_head x xs' hxs
        have hyhead := noHashes_cons_head y ys' hys
        by_cases hp : x.path = y.path
        · by_cases ht : x.type = y.type
          · by_cases htf : x.type = NodeType.File
            · have ihr := ih (countList xs' + countList ys') (by omega)
                xs' ys' le_rfl hxs' hys'
              by_cases hsz : x.fsize = y.fsize
              · rw [diffChildren_file_eq_size hashOf ro rn x y xs' ys' hp ht htf hsz]
                have hxty : (generate_hash hashOf ro x).type = NodeType.File := by
                  rw [generate_hash_type]; exact htf
                have hyty : (generate_hash hashOf rn y).type = NodeType.File := by
                  rw [generate_hash_type, ← ht]; exact htf
                constructor
                · intro n hn h hh
                  simp only [forestNodes, List.mem_append,
                    nodesOf_eq_of_file _ hxty, List.mem_singleton] at hn
                  rcases hn with hn | hn
                  · subst hn
                    refine ⟨hxty, generate_hash hashOf rn y, ?_, hyty, ?_, ?_⟩
                    · simp only [forestNodes, List.mem_append,
                        nodesOf_eq_of_file _ hyty, List.mem_singleton]
                      exact Or.inl trivial
                    · rw [generate_hash_path, generate_hash_path, hp]
                    · rw [generate_hash_fsize, generate_hash_fsize, hsz]
                  · obtain ⟨hty, m, hm, hprops⟩ := ihr.1 n hn h hh
                    refine ⟨hty, m, ?_, hprops⟩
                    simp only [forestNodes, List.mem_append]
                    exact Or.inr hm
                · intro n hn h hh
                  simp only [forestNodes, List.mem_append,
                    nodesOf_eq_of_file _ hyty, List.mem_singleton] at hn
                  rcases hn with hn | hn
                  · subst hn
                    refine ⟨hyty, generate_hash hashOf ro x, ?_, hxty, ?_, ?_⟩
                    · simp only [forestNodes, List.mem_append,
                        nodesOf_eq_of_file _ hxty, List.mem_singleton]
                      exact Or.inl trivial
                    · rw [generate_hash_path, generate_hash_path, hp]
                    · rw [generate_hash_fsize, generate_hash_fsize, hsz]
                  · obtain ⟨hty, m, hm, hprops⟩ := ihr.2 n hn h hh
                    refine ⟨hty, m, ?_, hprops⟩
                    simp only [forestNodes, List.mem_append]
                    exact Or.inr hm
              · rw [diffChildren_file_ne_size hashOf ro rn x y xs' ys' hp ht htf hsz]
                constructor
                · intro n hn h hh
                  simp only [forestNodes, List.mem_append] at hn
                  rcases hn with hn | hn
                  · rw [hxhead n hn] at hh; simp at hh
                  · obtain ⟨hty, m, hm, hprops⟩ := ihr.1 n hn h hh
                    refine ⟨hty, m, ?_, hprops⟩
                    simp only [forestNodes, List.mem_append]
                    exact Or.inr hm
                · intro n hn h hh
                  simp only [forestNodes, List.mem_append] at hn
                  rcases hn with hn | hn
                  · rw [hyhead n hn] at hh; simp at hh
                  · obtain ⟨hty, m, hm, hprops⟩ := ihr.2 n hn h hh
                    refine ⟨hty, m, ?_, hprops⟩
                    simp only [forestNodes, List.mem_append]
                    exact Or.inr hm
            · -- both directories: recurse into children
              have hxd := type_dir_of_not_file x htf
              have hyd : y.type = NodeType.Directory := ht ▸ hxd
              have ihr := ih (countList xs' + countList ys') (by omega)
                xs' ys' le_rfl hxs' hys'
              have ihc := ih (countList x.children + countList y.children)
                (by omega) x.children y.children le_rfl
                (noHashes_children x xs' hxs) (noHashes_children y ys' hys)
              rw [diffChildren_dir_pair hashOf ro rn x y xs' ys' hp ht htf]
              have hwx := withChildren_type x
                (diffChildren hashOf ro rn x.children y.children).2.1
              have hwy := withChildren_type y
                (diffChildren hashOf ro rn x.children y.children).2.2
              constructor
              · intro n hn h hh
                simp only [forestNodes, List.mem_append,
                  nodesOf_withChildren_of_dir x _ hxd, List.mem_cons] at hn
                rcases hn with (hn | hn) | hn
                · subst hn
                  rw [fhash_none_of_dir _ (hwx.trans hxd)] at hh
                  simp at hh
                · obtain ⟨hty, m, hm, hprops⟩ := ihc.1 n hn h hh
                  refine ⟨hty, m, ?_, hprops⟩
                  simp only [forestNodes, List.mem_append,
                    nodesOf_withChildren_of_dir y _ hyd, List.mem_cons]
                  exact Or.inl (Or.inr hm)
                · obtain ⟨hty, m, hm, hprops⟩ := ihr.1 n hn h hh
                  refine ⟨hty, m, ?_, hprops⟩
                  simp only [forestNodes, List.mem_append]
                  exact Or.inr hm
              · intro n hn h hh
                simp only [forestNodes, List.mem_append,
                  nodesOf_withChildren_of_dir y _ hyd, List.mem_cons] at hn
                rcases hn with (hn | hn) | hn
                · subst hn
                  rw [fhash_none_of_dir _ (hwy.trans hyd)] at hh
                  simp at hh
                · obtain ⟨hty, m, hm, hprops⟩ := ihc.2 n hn h hh
                  refine ⟨hty, m, ?_, hprops⟩
                  simp only [forestNodes, List.mem_append,
                    nodesOf_withChildren_of_dir x _ hxd, List.mem_cons]
                  exact Or.inl (Or.inr hm)
                · obtain ⟨hty, m, hm, hprops⟩ := ihr.2 n hn h hh
                  refine ⟨hty, m, ?_, hprops⟩
                  simp only [forestNodes, List.mem_append]
                  exact Or.inr hm
          · -- type change: both nodes pass through untouched
            have ihr := ih (countList xs' + countList ys') (by omega)
              xs' ys' le_rfl hxs' hys'
            rw [C3_type_change hashOf ro rn x y xs' ys' hp ht]
            constructor
            · intro n hn h hh
              simp only [forestNodes, List.mem_append] at hn
              rcases hn with hn | hn
              · rw [hxhead n hn] at hh; simp at hh
              · obtain ⟨hty, m, hm, hprops⟩ := ihr.1 n hn h hh
                refine ⟨hty, m, ?_, hprops⟩
                simp only [forestNodes, List.mem_append]
                exact Or.inr hm
            · intro n hn h hh
              simp only [forestNodes, List.mem_append] at hn
              rcases hn with hn | hn
              · rw [hyhead n hn] at hh; simp at hh
              · obtain ⟨hty, m, hm, hprops⟩ := ihr.2 n hn h hh
                refine ⟨hty, m, ?_, hprops⟩
                simp only [forestNodes, List.mem_append]
                exact Or.inr hm
        · by_cases hlt : ltBytes x.name y.name = true
          · have ihr := ih (countList xs' + (countNodes y + countList ys'))
              (by omega) xs' (y :: ys') (by simp only [countList]; omega) hxs' hys
            rw [diffChildren_del_step hashOf ro rn x y xs' ys' hp hlt]
            constructor
            · intro n hn h hh
              simp only [forestNodes, List.mem_append] at hn
              rcases hn with hn | hn
              · rw [hxhead n hn] at hh; simp at hh
              · exact ihr.1 n hn h hh
            · intro n hn h hh
              obtain ⟨hty, m, hm, hprops⟩ := ihr.2 n hn h hh
              refine ⟨hty, m, ?_, hprops⟩
              simp only [forestNodes, List.mem_append]
              exact Or.inr hm
          · have ihr := ih ((countNodes x + countList xs') + countList ys')
              (by omega) (x :: xs') ys' (by simp only [countList]; omega) hxs hys'
            rw [diffChildren_add_step hashOf ro rn x y xs' ys' hp hlt]
            constructor
            · intro n hn h hh
              obtain ⟨hty, m, hm, hprops⟩ := ihr.1 n hn h hh
              refine ⟨hty, m, ?_, hprops⟩
              simp only [forestNodes, List.mem_append]
              exact Or.inr hm
            · intro n hn h hh
              simp only [forestNodes, List.mem_append] at hn
              rcases hn with hn | hn
              · rw [hyhead n hn] at hh; simp at hh
              · exact ihr.2 n hn h hh

/-- C4: hashing during the diff is lazy and decisive.  (i) A path-paired
file pair of equal sizes has `generate_hash` applied to both sides and
produces a `Modified` record iff the resulting hashes differ; (ii) a
path-paired file pair of unequal sizes produces exactly one `Modified`
record and both nodes pass through with their `file_hash` untouched —
`generate_hash` is not invoked; (iii) globally, starting from hash-free
trees, after `diffTree` completes every node carrying a populated
`file_hash` is a file that the merge paired with a same-path file of
equal size in the other tree — so no node whose size differed from its
counterpart, and no unpaired node, is ever hashed. -/
theorem C4_lazy_hashing (hashOf : ByteStr → ByteStr → Hash) (ro rn : ByteStr) :
    (∀ x y xs ys, x.path = y.path → x.type = y.type →
      x.type = NodeType.File → x.fsize = y.fsize →
      diffChildren hashOf ro rn (x :: xs) (y :: ys) =
        ((if (generate_hash hashOf ro x).fhash ≠ (generate_hash hashOf rn y).fhash
          then NodeDiff.modified (generate_hash hashOf ro x)
            (generate_hash hashOf rn y) :: (diffChildren hashOf ro rn xs ys).1
          else (diffChildren hashOf ro rn xs ys).1),
          generate_hash hashOf ro x :: (diffChildren hashOf ro rn xs ys).2.1,
          generate_hash hashOf rn y :: (diffChildren hashOf ro rn xs ys).2.2)) ∧
    (∀ x y xs ys, x.path = y.path → x.type = y.type →
      x.type = NodeType.File → x.fsize ≠ y.fsize →
      diffChildren hashOf ro rn (x :: xs) (y :: ys) =
        (NodeDiff.modified x y :: (diffChildren hashOf ro rn xs ys).1,
          x :: (diffChildren hashOf ro rn xs ys).2.1,
          y :: (diffChildren hashOf ro rn xs ys).2.2)) ∧
    (∀ xs ys, noHashes xs → noHashes ys →
      hashLazy (diffChildren hashOf ro rn xs ys).2.2
          (diffChildren hashOf ro rn xs ys).2.1 ∧
      hashLazy (diffChildren hashOf ro rn xs ys).2.1
          (diffChildren hashOf ro rn xs ys).2.2) := by
  refine ⟨diffChildren_file_eq_size hashOf ro rn,
    diffChildren_file_ne_size hashOf ro rn, ?_⟩
  intro xs ys hxs hys
  exact diffChildren_lazy hashOf ro rn (countList xs + countList ys)
    xs ys le_rfl hxs hys

/-- Concrete hash-free file pairs for the C4 witness: equal paths, equal
sizes (hashes will be generated and differ through the roots), and a
size-differing pair. -/
def c4FileA : Node := Node.file [97] [97] 0 1 none

def c4FileB : Node := Node.file [97] [97] 5 1 none

def c4FileC : Node := Node.file [97] [97] 5 2 none

/-- C4 witness: the three conjuncts evaluated at concrete inputs — the
equal-size pair is hashed on both sides and emits one `Modified`; the
unequal-size pair passes through unhashed with one `Modified`; the
laziness invariant holds for the resulting trees. -/
theorem C4_lazy_hashing_witness :
    diffChildren (fun r _ => r) [0] [1] [c4FileA] [c4FileB] =
      ([NodeDiff.modified (Node.file [97] [97] 0 1 (some [0]))
          (Node.file [97] [97] 5 1 (some [1]))],
        [Node.file [97] [97] 0 1 (some [0])],
        [Node.file [97] [97] 5 1 (some [1])]) ∧
    diffChildren (fun r _ => r) [0] [1] [c4FileA] [c4FileC] =
      ([NodeDiff.modified c4FileA c4FileC], [c4FileA], [c4FileC]) ∧
    hashLazy (diffChildren (fun r _ => r) [0] [1] [c4FileA] [c4FileB]).2.2
      (diffChildren (fun r _ => r) [0] [1] [c4FileA] [c4FileB]).2.1 := by
  have hnx : noHashes [c4FileA] := by
    intro n hn
    simp [forestNodes, nodesOf, c4FileA] at hn
    simp [hn, Node.fhash]
  have hny : noHashes [c4FileB] := by
    intro n hn
    simp [forestNodes, nodesOf, c4FileB] at hn
    simp [hn, Node.fhash]
  have h1 := (C4_lazy_hashing (fun r _ => r) [0] [1]).1 c4FileA c4FileB [] []
    (by simp [c4FileA, c4FileB, Node.path]) (by simp [c4FileA, c4FileB, Node.type])
    (by simp [c4FileA, Node.type]) (by simp [c4FileA, c4FileB, Node.fsize])
  have h2 := (C4_lazy_hashing (fun r _ => r) [0] [1]).2.1 c4FileA c4FileC [] []
    (by simp [c4FileA, c4FileC, Node.path]) (by simp [c4FileA, c4FileC, Node.type])
    (by simp [c4FileA, Node.type]) (by simp [c4FileA, c4FileC, Node.fsize])
  have h3 := ((C4_lazy_hashing (fun r _ => r) [0] [1]).2.2 [c4FileA] [c4FileB]
    hnx hny).1
  refine ⟨?_, ?_, h3⟩
  · rw [h1]
    simp [c4FileA, c4FileB, generate_hash, Node.fhash, diffChildren]
  · rw [h2]
    simp [diffChildren]

/-! ## Scanner (`fstree::Node::file` / `fstree::Node::directory`) -/

theorem ltBytes_asymm : ∀ a b : ByteStr, ltBytes a b = true → ltBytes b a = false := by
  intro a
  induction a with
  | nil => intro b h; cases b <;> simp [ltBytes] at h ⊢
  | cons x xs ih =>
      intro b h
      cases b with
      | nil => simp [ltBytes] at h
      | cons y ys =>
          simp only [ltBytes] at h ⊢
          by_cases hxy : x < y
          · rw [if_neg (by omega), if_pos (by omega)]
          · rw [if_neg hxy] at h
            by_cases hyx : y < x
            · rw [if_pos hyx] at h
              simp at h
            · rw [if_neg hyx] at h
              rw [if_neg hyx, if_neg hxy]
              exact ih ys h

theorem ltBytes_trans : ∀ a b c : ByteStr,
    ltBytes a b = true → ltBytes b c = true → ltBytes a c = true := by
  intro a
  induction a with
  | nil =>
      intro b c h1 h2
      cases b <;> cases c <;> simp [ltBytes] at h1 h2 ⊢
  | cons x xs ih =>
      intro b c h1 h2
      cases b with
      | nil => simp [ltBytes] at h1
      | cons y ys =>
          cases c with
          | nil => simp [ltBytes] at h2
          | cons z zs =>
              simp only [ltBytes] at h1 h2 ⊢
              by_cases hxy : x < y
              · by_cases hyz : y < z
                · rw [if_pos (by omega)]
                · rw [if_neg hyz] at h2
                  by_cases hzy : z < y
                  · rw [if_pos hzy] at h2
                    simp at h2
                  · rw [if_neg hzy] at h2
                    have : y = z := by omega
                    subst this
                    rw [if_pos hxy]
              · rw [if_neg hxy] at h1
                by_cases hyx : y < x
                · rw [if_pos hyx] at h1
                  simp at h1
                · rw [if_neg hyx] at h1
                  have hxy' : x = y := by omega
                  subst hxy'
                  by_cases hxz : x < z
                  · rw [if_pos hxz]
                  · rw [if_neg hxz] at h2 ⊢
                    by_cases hzx : z < x
                    · rw [if_pos hzx] at h2
                      simp at h2
                    · rw [if_neg hzx] at h2 ⊢
                      exact ih ys zs h1 h2

theorem ltBytes_connex : ∀ a b : ByteStr,
    a ≠ b → ltBytes a b = false → ltBytes b a = true := by
  intro a
  induction a with
  | nil =>
      intro b hne h
      cases b with
      | nil => exact absurd rfl hne
      | cons y ys => simp [ltBytes] at h
  | cons x xs ih =>
      intro b hne h
      cases b with
      | nil => simp [ltBytes]
      | cons y ys =>
          simp only [ltBytes] at h ⊢
          by_cases hxy : x < y
          · rw [if_pos hxy] at h
            simp at h
          · rw [if_neg hxy] at h
            by_cases hyx : y < x
            · rw [if_pos hyx]
            · rw [if_neg hyx] at h
              rw [if_neg hyx, if_neg hxy]
              have hxy' : x = y := by omega
              subst hxy'
              refine ih ys ?_ h
              intro hc
              exact hne (by rw [hc])

/-- The `std::sort` comparator in `fstree::Node::directory`: directories
first, then lexicographically increasing names. -/
def cppLt (a b : Node) : Bool :=
  if a.type ≠ b.type then decide (a.type = NodeType.Directory)
  else ltBytes a.name b.name

theorem cppLt_asymm (a b : Node) (h : cppLt a b = true) : cppLt b a = false := by
  unfold cppLt at h ⊢
  by_cases ht : a.type = b.type
  · rw [if_neg (by simp [ht])] at h
    rw [if_neg (by simp [ht])]
    exact ltBytes_asymm _ _ h
  · rw [if_pos ht] at h
    rw [if_pos (fun hc => ht hc.symm)]
    simp only [decide_eq_true_eq] at h
    simp only [decide_eq_false_iff_not]
    intro hb
    exact ht (h.trans hb.symm)

theorem cppLt_trans (a b c : Node) (h1 : cppLt a b = true)
    (h2 : cppLt b c = true) : cppLt a c = true := by
  unfold cppLt at *
  cases ha : a.type <;> cases hb : b.type <;> cases hc : c.type <;>
    simp [ha, hb, hc] at h1 h2 ⊢ <;>
    exact ltBytes_trans _ _ _ h1 h2

theorem cppLt_of_not_gt (a b : Node) (h : cppLt b a = false)
    (hn : a.name ≠ b.name) : cppLt a b = true := by
  unfold cppLt at *
  cases ha : a.type <;> cases hb : b.type <;> simp [ha, hb] at h ⊢
  · exact ltBytes_connex _ _ (fun hc => hn hc.symm) h
  · exact ltBytes_connex _ _ (fun hc => hn hc.symm) h

/-- The insertion step used to model `std::sort`. -/
def insertNode (x : Node) : List Node → List Node
  | [] => [x]
  | y :: ys => if cppLt x y then x :: y :: ys else y :: insertNode x ys

/-- The sort in `fstree::Node::directory` (`std::sort` with the
directory-first comparator).  With pairwise-distinct sibling names — a
filesystem guarantee — the comparator is a strict total order, so the
sorted vector is unique and any correct sort produces it; a stable
insertion sort is used here. -/
def sortChildren (l : List Node) : List Node := l.foldr insertNode []

theorem mem_insertNode (x a : Node) :
    ∀ l, a ∈ insertNode x l ↔ a = x ∨ a ∈ l := by
  intro l
  induction l with
  | nil => simp [insertNode]
  | cons y ys ih =>
      simp only [insertNode]
      by_cases h : cppLt x y
      · rw [if_pos h]
        simp [List.mem_cons]
      · rw [if_neg h]
        simp only [List.mem_cons, ih]
        tauto

theorem insertNode_perm (x : Node) : ∀ l, (insertNode x l).Perm (x :: l) := by
  intro l
  induction l with
  | nil => simp [insertNode]
  | cons y ys ih =>
      simp only [insertNode]
      by_cases h : cppLt x y
      · rw [if_pos h]
      · rw [if_neg h]
        exact (ih.cons y).trans (List.Perm.swap x y ys)

theorem sortChildren_perm : ∀ l : List Node, (sortChildren l).Perm l := by
  intro l
  induction l with
  | nil => simp [sortChildren]
  | cons c cs ih =>
      have : sortChildren (c :: cs) = insertNode c (sortChildren cs) := rfl
      rw [this]
      exact (insertNode_perm c (sortChildren cs)).trans (ih.cons c)

theorem pairwise_insertNode (x : Node) :
    ∀ l, l.Pairwise (fun a b => cppLt b a = false) →
      (insertNode x l).Pairwise (fun a b => cppLt b a = false) := by
  intro l
  induction l with
  | nil =>
      intro _
      simp [insertNode]
  | cons y ys ih =>
      intro hp
      rw [List.pairwise_cons] at hp
      obtain ⟨hy, hys⟩ := hp
      simp only [insertNode]
      by_cases h : cppLt x y
      · rw [if_pos h]
        refine List.Pairwise.cons ?_ (List.Pairwise.cons hy hys)
        intro z hz
        rcases List.mem_cons.mp hz with rfl | hz
        · exact cppLt_asymm _ _ h
        · cases hzx : cppLt z x with
          | false => rfl
          | true =>
              have hzy := cppLt_trans z x y hzx h
              have hzy' := hy z hz
              rw [hzy'] at hzy
              simp at hzy
      · rw [if_neg h]
        refine List.Pairwise.cons ?_ (ih hys)
        intro z hz
        rcases (mem_insertNode x z ys).mp hz with rfl | hz
        · simpa using h
        · exact hy z hz

theorem sortChildren_pairwise :
    ∀ l : List Node,
      (sortChildren l).Pairwise (fun a b => cppLt b a = false) := by
  intro l
  induction l with
  | nil => simp [sortChildren]
  | cons c cs ih => exact pairwise_insertNode c (sortChildren cs) ih

theorem sortChildren_pairwise_cppLt (l : List Node)
    (hd : l.Pairwise (fun a b => a.name ≠ b.name)) :
    (sortChildren l).Pairwise (fun a b => cppLt a b = true) := by
  have hsym : Symmetric (fun a b : Node => a.name ≠ b.name) :=
    fun a b h hc => h hc.symm
  have hd' : (sortChildren l).Pairwise (fun a b => a.name ≠ b.name) :=
    ((sortChildren_perm l).pairwise_iff fun h hc => hsym h hc).mpr hd
  have hle := sortChildren_pairwise l
  exact (hle.and hd').imp fun hab => cppLt_of_not_gt _ _ hab.1 hab.2

/-- A directory entry as seen by `fs::directory_iterator`: a regular
file, a directory, or anything else — symlink, device, socket, FIFO. -/
inductive FsEntry where
  | file (name : ByteStr) (size : Nat) (mtime : Int)
  | dir (name : ByteStr) (mtime : Int) (entries : List FsEntry)
  | other (name : ByteStr)

def FsEntry.ename : FsEntry → ByteStr
  | .file n _ _ => n
  | .dir n _ _ => n
  | .other n => n

/-- The `std::invalid_argument` thrown by `Node::file` /
`Node::directory` when the path is not of the expected kind. -/
inductive ScanError where
  | invalidPath
deriving DecidableEq, Repr

/-- `fs::path::operator/` combined with the later relativization in
`buildIndex`: the root's relative path is empty, a child's is
`parent / name`. -/
def joinPath (p n : ByteStr) : ByteStr := if p = [] then n else p ++ 47 :: n

mutual

/-- `fstree::Node::directory`: throws unless the path is a directory;
scans each entry — a regular file through `Node::file`, everything else
through `Node::directory` again, which throws on non-directories (so a
symlink, device or socket entry aborts the scan) — then sorts the
children with the canonical comparator. -/
def scanDir (p : ByteStr) : FsEntry → Except ScanError Node
  | .dir name mt es => do
      let cs ← scanList p es
      Except.ok (Node.dir name p mt (sortChildren cs))
  | .file _ _ _ => Except.error ScanError.invalidPath
  | .other _ => Except.error ScanError.invalidPath

/-- The `fs::directory_iterator` loop inside `Node::directory`:
`is_regular_file` entries become file nodes (size and mtime captured,
hash absent), every other entry is handed to `Node::directory`. -/
def scanList (parent : ByteStr) : List FsEntry → Except ScanError (List Node)
  | [] => Except.ok []
  | e :: es => do
      let n ←
        match e with
        | .file name sz mt =>
            Except.ok (Node.file name (joinPath parent name) mt sz none)
        | e' => scanDir (joinPath parent e'.ename) e'
      let ns ← scanList parent es
      Except.ok (n :: ns)

end

/-- Pairwise-distinct byte strings. -/
def distinctNames : List ByteStr → Bool
  | [] => true
  | n :: ns => ns.all (fun m => decide (¬n = m)) && distinctNames ns

mutual

/-- Sibling names are pairwise distinct at every level — a filesystem
guarantee (one directory cannot hold two identical names). -/
def wfNames : FsEntry → Bool
  | .file _ _ _ => true
  | .other _ => true
  | .dir _ _ es => distinctNames (es.map FsEntry.ename) && wfNamesList es

def wfNamesList : List FsEntry → Bool
  | [] => true
  | e :: es => wfNames e && wfNamesList es

end

mutual

def weightE : FsEntry → Nat
  | .file _ _ _ => 1
  | .other _ => 1
  | .dir _ _ es => 1 + weightLE es

def weightLE : List FsEntry → Nat
  | [] => 0
  | e :: es => weightE e + weightLE es

end

theorem weightE_pos (e : FsEntry) : 1 ≤ weightE e := by
  cases e <;> simp [weightE]

theorem distinctNames_pairwise :
    ∀ ns, distinctNames ns = true → ns.Pairwise (fun a b => a ≠ b) := by
  intro ns
  induction ns with
  | nil => intro _; exact List.Pairwise.nil
  | cons n ns ih =>
      intro h
      simp only [distinctNames, Bool.and_eq_true, List.all_eq_true,
        decide_eq_true_eq] at h
      exact List.Pairwise.cons (fun m hm => h.1 m hm) (ih h.2)

theorem mem_forestNodes :
    ∀ (l : List Node) (n : Node),
      n ∈ forestNodes l ↔ ∃ c ∈ l, n ∈ nodesOf c := by
  intro l n
  induction l with
  | nil => simp [forestNodes]
  | cons c cs ih =>
      simp only [forestNodes, List.mem_append, ih, List.mem_cons]
      constructor
      · rintro (h | ⟨c', hc', hn⟩)
        · exact ⟨c, Or.inl rfl, h⟩
        · exact ⟨c', Or.inr hc', hn⟩
      · rintro ⟨c', hc' | hc', hn⟩
        · exact Or.inl (hc' ▸ hn)
        · exact Or.inr ⟨c', hc', hn⟩

/-- The canonical sibling order as the spec words it: every directory
precedes every file, and same-type siblings have strictly increasing
names. -/
def canonBefore (a b : Node) : Prop :=
  (a.type = NodeType.Directory ∧ b.type = NodeType.File) ∨
    (a.type = b.type ∧ ltBytes a.name b.name = true)

theorem canonBefore_of_cppLt (a b : Node) (h : cppLt a b = true) :
    canonBefore a b := by
  unfold cppLt at h
  by_cases ht : a.type = b.type
  · rw [if_neg (by simp [ht])] at h
    exact Or.inr ⟨ht, h⟩
  · rw [if_pos ht] at h
    simp only [decide_eq_true_eq] at h
    refine Or.inl ⟨h, ?_⟩
    cases hb : b.type with
    | File => rfl
    | Directory => exact absurd (h.trans hb.symm) ht

theorem bind_ok_eq {ε α β : Type} (a : α) (f : α → Except ε β) :
    (Except.ok a : Except ε α) >>= f = f a := rfl

theorem bind_error_eq {ε α β : Type} (e : ε) (f : α → Except ε β) :
    (Except.error e : Except ε α) >>= f = Except.error e := rfl

theorem scanDir_ok_inv (p : ByteStr) (e : FsEntry) (t : Node)
    (h : scanDir p e = Except.ok t) :
    ∃ nm mt es cs, e = FsEntry.dir nm mt es ∧ scanList p es = Except.ok cs ∧
      t = Node.dir nm p mt (sortChildren cs) := by
  cases e with
  | file nm sz mt => simp [scanDir] at h
  | other nm => simp [scanDir] at h
  | dir nm mt es =>
      simp only [scanDir] at h
      cases hcs : scanList p es with
      | error err =>
          rw [hcs] at h
          simp [bind_error_eq] at h
      | ok cs =>
          rw [hcs] at h
          simp only [bind_ok_eq, Except.ok.injEq] at h
          exact ⟨nm, mt, es, cs, rfl, hcs, h.symm⟩

theorem scan_canonical (k : Nat) :
    (∀ p e t, weightE e ≤ k → wfNames e = true → scanDir p e = Except.ok t →
      ∀ n ∈ nodesOf t, n.type = NodeType.Directory →
        n.children.Pairwise canonBefore) ∧
    (∀ parent es ns, weightLE es ≤ k → wfNamesList es = true →
      scanList parent es = Except.ok ns →
      (∀ c ∈ ns, ∀ n ∈ nodesOf c, n.type = NodeType.Directory →
        n.children.Pairwise canonBefore) ∧
      ns.map Node.name = es.map FsEntry.ename) := by
  induction k using Nat.strong_induction_on with
  | _ k ih =>
    have hnode : ∀ p e t, weightE e ≤ k → wfNames e = true →
        scanDir p e = Except.ok t →
        ∀ n ∈ nodesOf t, n.type = NodeType.Directory →
          n.children.Pairwise canonBefore := by
      intro p e t hw hwf hs
      obtain ⟨nm, mt, es, cs, rfl, hcs, rfl⟩ := scanDir_ok_inv p e t hs
      simp only [weightE] at hw
      have hk1 : k - 1 < k := by omega
      simp only [wfNames, Bool.and_eq_true] at hwf
      obtain ⟨hallc, hnames⟩ :=
        (ih (k - 1) hk1).2 p es cs (by omega) hwf.2 hcs
      have hdistinct : cs.Pairwise (fun a b => a.name ≠ b.name) := by
        have hp := distinctNames_pairwise _ hwf.1
        rw [← hnames] at hp
        exact List.pairwise_map.mp hp
      have hsorted := (sortChildren_pairwise_cppLt cs hdistinct).imp
        fun h => canonBefore_of_cppLt _ _ h
      intro n hn hdir
      simp only [nodesOf, List.mem_cons] at hn
      rcases hn with rfl | hn
      · simpa [Node.children] using hsorted
      · rw [mem_forestNodes] at hn
        obtain ⟨c, hc, hnc⟩ := hn
        exact hallc c (((sortChildren_perm cs).mem_iff).mp hc) n hnc hdir
    refine ⟨hnode, ?_⟩
    intro parent es
    induction es with
    | nil =>
        intro ns _ _ hs
        simp only [scanList] at hs
        cases hs
        exact ⟨fun c hc => absurd hc (List.not_mem_nil c), rfl⟩
    | cons e es ihl =>
        intro ns hw hwf hs
        simp only [weightLE] at hw
        have hwe := weightE_pos e
        simp only [wfNamesList, Bool.and_eq_true] at hwf
        cases e with
        | file nm sz mt =>
            simp only [scanList, bind_ok_eq] at hs
            cases hrest : scanList parent es with
            | error err =>
                rw [hrest] at hs
                simp [bind_error_eq] at hs
            | ok ns' =>
                rw [hrest] at hs
                simp only [bind_ok_eq, Except.ok.injEq] at hs
                subst hs
                obtain ⟨htailc, htailn⟩ := ihl ns' (by omega) hwf.2 hrest
                refine ⟨?_, ?_⟩
                · intro c hc n hn hdir
                  rcases List.mem_cons.mp hc with rfl | hc
                  · simp only [nodesOf, List.mem_singleton] at hn
                    subst hn
                    simp [Node.type] at hdir
                  · exact htailc c hc n hn hdir
                · simp [Node.name, FsEntry.ename, htailn]
        | dir nm mt es' =>
            simp only [scanList, FsEntry.ename] at hs
            cases hd : scanDir (joinPath parent nm) (FsEntry.dir nm mt es') with
            | error err =>
                rw [hd] at hs
                simp [bind_error_eq] at hs
            | ok c =>
                rw [hd] at hs
                simp only [bind_ok_eq] at hs
                cases hrest : scanList parent es with
                | error err =>
                    rw [hrest] at hs
                    simp [bind_error_eq] at hs
                | ok ns' =>
                    rw [hrest] at hs
                    simp only [bind_ok_eq, Except.ok.injEq] at hs
                    subst hs
                    obtain ⟨htailc, htailn⟩ := ihl ns' (by omega) hwf.2 hrest
                    have hcprop := hnode (joinPath parent nm)
                      (FsEntry.dir nm mt es') c (by omega) hwf.1 hd
                    have hcname : c.name = nm := by
                      obtain ⟨nm', mt', es'', cs', heq, _, rfl⟩ :=
                        scanDir_ok_inv _ _ _ hd
                      cases heq
                      rfl
                    refine ⟨?_, ?_⟩
                    · intro c' hc' n hn hdir
                      rcases List.mem_cons.mp hc' with rfl | hc'
                      · exact hcprop n hn hdir
                      · exact htailc c' hc' n hn hdir
                    · simp [FsEntry.ename, hcname, htailn]
        | other nm =>
            simp only [scanList, FsEntry.ename, scanDir, bind_error_eq] at hs
            cases hs

/-- C5: in every tree produced by scanning (`Node::directory` /
`DirectoryTree` construction), each directory node's child vector is in
canonical order — every directory child precedes every file child, and
same-type siblings have strictly increasing byte-wise names.  The
hypothesis `wfNames` states the filesystem guarantee that sibling names
are pairwise distinct. -/
theorem C5_canonical_order (p : ByteStr) (e : FsEntry) (t : Node)
    (hwf : wfNames e = true) (hs : scanDir p e = Except.ok t) :
    ∀ n ∈ nodesOf t, n.type = NodeType.Directory →
      n.children.Pairwise canonBefore :=
  (scan_canonical (weightE e)).1 p e t le_rfl hwf hs

/-- A concrete filesystem for the C5 witness: the root holds files `b`,
`a` (in that iteration order) and a subdirectory `c` holding `z`, `y`. -/
def c5Entry : FsEntry :=
  FsEntry.dir [114] 0
    [ FsEntry.file [98] 1 2
    , FsEntry.file [97] 3 4
    , FsEntry.dir [99] 5 [FsEntry.file [122] 6 7, FsEntry.file [121] 8 9] ]

/-- The tree the scan produces from `c5Entry`: directory `c` first, then
`a`, `b`; inside `c`, `y` before `z`. -/
def c5Tree : Node :=
  Node.dir [114] [] 0
    [ Node.dir [99] [99] 5
        [ Node.file [121] [99, 47, 121] 9 8 none
        , Node.file [122] [99, 47, 122] 7 6 none ]
    , Node.file [97] [97] 4 3 none
    , Node.file [98] [98] 2 1 none ]

/-- C5 witness: the scan of `c5Entry` succeeds, produces `c5Tree`, and
the claim theorem applied to it yields canonical order everywhere. -/
theorem C5_canonical_order_witness :
    wfNames c5Entry = true ∧
    scanDir [] c5Entry = Except.ok c5Tree ∧
    (∀ n ∈ nodesOf c5Tree, n.type = NodeType.Directory →
      n.children.Pairwise canonBefore) := by
  have hwf : wfNames c5Entry = true := by
    simp [c5Entry, wfNames, wfNamesList, distinctNames, FsEntry.ename]
  have hscan : scanDir [] c5Entry = Except.ok c5Tree := by
    simp [c5Entry, c5Tree, scanDir, scanList, joinPath, FsEntry.ename,
      sortChildren, insertNode, cppLt, ltBytes, Node.type, Node.name,
      bind_ok_eq]
  exact ⟨hwf, hscan, C5_canonical_order [] c5Entry c5Tree hwf hscan⟩

/-! ### Handling of non-regular, non-directory entries (C6) -/

mutual

/-- Whether an entry tree contains an entry that is neither a regular
file nor a directory. -/
def containsOther : FsEntry → Bool
  | .file _ _ _ => false
  | .other _ => true
  | .dir _ _ es => containsOtherList es

def containsOtherList : List FsEntry → Bool
  | [] => false
  | e :: es => containsOther e || containsOtherList es

end

/-- C6 counterexample: a directory whose single entry is a socket-like
entry.  The claim says the entry is silently skipped and the scan
succeeds with no node for it; in the code the `else` branch of the
iterator loop passes the entry to `Node::directory`, which throws
`std::invalid_argument`, so the scan fails. -/
theorem C6_skip_counterexample :
    scanDir [] (FsEntry.dir [114] 0 [FsEntry.other [115]]) =
      Except.error ScanError.invalidPath := by
  simp [scanDir, scanList, joinPath, FsEntry.ename, bind_error_eq]

/-- C6 amended: an entry that is neither a regular file nor a directory
is not skipped — it is handed to `Node::directory`, which fails with
`invalid_argument`, and the failure aborts the whole scan. -/
theorem C6_other_entry_fails (k : Nat) :
    (∀ p e, weightE e ≤ k → containsOther e = true →
      scanDir p e = Except.error ScanError.invalidPath) ∧
    (∀ parent es, weightLE es ≤ k → containsOtherList es = true →
      scanList parent es = Except.error ScanError.invalidPath) := by
  induction k using Nat.strong_induction_on with
  | _ k ih =>
    have hnode : ∀ p e, weightE e ≤ k → containsOther e = true →
        scanDir p e = Except.error ScanError.invalidPath := by
      intro p e hw hc
      cases e with
      | file nm sz mt => simp [containsOther] at hc
      | other nm => simp [scanDir]
      | dir nm mt es =>
          simp only [containsOther] at hc
          simp only [weightE] at hw
          have hk1 : k - 1 < k := by omega
          have hlist := (ih (k - 1) hk1).2 p es (by omega) hc
          simp [scanDir, hlist, bind_error_eq]
    refine ⟨hnode, ?_⟩
    intro parent es
    induction es with
    | nil =>
        intro _ hc
        simp [containsOtherList] at hc
    | cons e es ihl =>
        intro hw hc
        simp only [weightLE] at hw
        have hwe := weightE_pos e
        simp only [containsOtherList, Bool.or_eq_true] at hc
        cases e with
        | file nm sz mt =>
            rcases hc with hc | hc
            · simp [containsOther] at hc
            · have htail := ihl (by omega) hc
              simp [scanList, htail, bind_ok_eq, bind_error_eq]
        | other nm =>
            simp [scanList, scanDir, FsEntry.ename, bind_error_eq]
        | dir nm mt es' =>
            rcases hc with hc | hc
            · have hd := hnode (joinPath parent nm) (FsEntry.dir nm mt es')
                (by omega) hc
              simp [scanList, FsEntry.ename, hd, bind_error_eq]
            · cases hd : scanDir (joinPath parent nm) (FsEntry.dir nm mt es') with
              | error err =>
                  cases err
                  simp [scanList, FsEntry.ename, hd, bind_error_eq]
              | ok c =>
                  have htail := ihl (by omega) hc
                  simp [scanList, FsEntry.ename, hd, htail, bind_ok_eq,
                    bind_error_eq]

/-- C6 amended, top level: scanning any root whose tree contains a
non-regular, non-directory entry fails with `invalid_argument`. -/
theorem C6_scan_fails_on_other (p : ByteStr) (e : FsEntry)
    (hc : containsOther e = true) :
    scanDir p e = Except.error ScanError.invalidPath :=
  (C6_other_entry_fails (weightE e)).1 p e le_rfl hc

/-- C6 witness for the amended claim: the concrete socket-holding root
evaluated through the amended theorem. -/
theorem C6_scan_fails_on_other_witness :
    containsOther (FsEntry.dir [114] 0 [FsEntry.other [115]]) = true ∧
    scanDir [] (FsEntry.dir [114] 0 [FsEntry.other [115]]) =
      Except.error ScanError.invalidPath := by
  have hc : containsOther (FsEntry.dir [114] 0 [FsEntry.other [115]]) = true := by
    simp [containsOther, containsOtherList]
  exact ⟨hc, C6_scan_fails_on_other [] _ hc⟩

/-! ## Session protocol (`net::Session`, `src/src/peer.cpp`) -/

/-- `net::MAX_TREE_SIZE` (64 MiB). -/
def MAX_TREE_SIZE : Nat := 64 * 1024 * 1024

/-- `net::MAX_FILE_CHUNK_SIZE` (64 MiB). -/
def MAX_FILE_CHUNK_SIZE : Nat := 64 * 1024 * 1024

/-- The failures raised inside `net::Session` operations: the
`std::runtime_error` throws of the source plus transport failures
surfaced by `asio` reads and writes. -/
inductive SessErr where
  | sizeLimit
  | ioError
  | badChunkSize
  | openFail
deriving DecidableEq, Repr

/-- Modelled from the spec: `fstree::serializeTree` is declared and
called by the session layer but its definition is not among the
repository sources; per §4.3 it emits the root node's serialization. -/
def serializeTree (t : DirectoryTree) : List Nat := serializeNode t.root

/-- Modelled from the spec: `fstree::deserializeTree` consumes the
buffer and reconstructs the tree; `root_path` is not on the wire — the
receiver supplies it. -/
def deserializeTree (bs : List Nat) : Option Node :=
  (deserializeNode bs).map (·.1)

/-- `net::Session::receiveTree`: read the 8-byte big-endian length
prefix, reject a declared length above `MAX_TREE_SIZE`, read that many
payload bytes, deserialize.  The whole body sits in a try/catch whose
handler calls `close()`, so the second component (session closed) is
true on every failure path.  `input` is the byte stream the socket will
deliver. -/
def receiveTreeM (input : List Nat) : Except SessErr Node × Bool :=
  match readBE 8 input with
  | none => (Except.error SessErr.ioError, true)
  | some (size, rest) =>
      if size > MAX_TREE_SIZE then (Except.error SessErr.sizeLimit, true)
      else
        match takeExact size rest with
        | none => (Except.error SessErr.ioError, true)
        | some (payload, _) =>
            match deserializeTree payload with
            | none => (Except.error SessErr.ioError, true)
            | some t => (Except.ok t, false)

/-- `net::Session::sendTree`: serialize in memory, then write the
8-byte big-endian length followed by the payload in one gathered write;
`writeOk` abstracts the outcome of `async_write`.  The catch block
closes the session on failure. -/
def sendTreeM (t : DirectoryTree) (writeOk : Bool) :
    Except SessErr (List Nat) × Bool :=
  if writeOk then
    (Except.ok (beBytes 8 (serializeTree t).length ++ serializeTree t), false)
  else (Except.error SessErr.ioError, true)

/-- The chunk loop of `net::Session::receiveFile`: while fewer than
`file_size` bytes have been received, read a `u32` big-endian chunk
length, reject a length above `MAX_FILE_CHUNK_SIZE` or equal to zero
before reading the chunk, then read the declared bytes and write them
to the file.  Returns the bytes written and the unconsumed stream;
never compares the final total against `file_size`. -/
def chunkLoop (fileSize received : Nat) (input written : List Nat) :
    Except SessErr (List Nat × List Nat) :=
  if hrec : received < fileSize then
    match readBE 4 input with
    | none => Except.error SessErr.ioError
    | some (clen, rest) =>
        if hbad : clen > MAX_FILE_CHUNK_SIZE ∨ clen = 0 then
          Except.error SessErr.sizeLimit
        else
          match takeExact clen rest with
          | none => Except.error SessErr.ioError
          | some (chunk, rest') =>
              chunkLoop fileSize (received + clen) rest' (written ++ chunk)
  else Except.ok (written, input)
termination_by fileSize - received
decreasing_by
  simp only [not_or] at hbad
  omega

/-- `net::Session::receiveFile`: read the 8-byte big-endian header
length, reject it above `MAX_FILE_CHUNK_SIZE` before reading the header,
read the header bytes, parse `string rel_path` and `u64 file_size` with
the wire codec, then run the chunk loop.  The function has no try/catch
and never calls `close()`, so the closed flag is false on every path.
(The C++ header parse cannot throw — a short `istringstream` read
yields an indeterminate value instead; it is modelled as an I/O error,
a path no claim depends on.)  Directory creation, the destination-file
write and the final re-scan are filesystem effects outside the
byte-stream model. -/
def receiveFileM (input : List Nat) :
    Except SessErr (ByteStr × Nat × List Nat) × Bool :=
  match readBE 8 input with
  | none => (Except.error SessErr.ioError, false)
  | some (hdrSize, rest) =>
      if hdrSize > MAX_FILE_CHUNK_SIZE then
        (Except.error SessErr.sizeLimit, false)
      else
        match takeExact hdrSize rest with
        | none => (Except.error SessErr.ioError, false)
        | some (hdrBuf, rest2) =>
            match readString hdrBuf with
            | none => (Except.error SessErr.ioError, false)
            | some (relPath, hdrRest) =>
                match readLE 8 hdrRest with
                | none => (Except.error SessErr.ioError, false)
                | some (fileSize, _) =>
                    match chunkLoop fileSize 0 rest2 [] with
                    | Except.error e => (Except.error e, false)
                    | Except.ok (written, _) =>
                        (Except.ok (relPath, fileSize, written), false)

/-- The sending loop of `net::Session::sendFile`: while bytes remain,
read `min(remaining, chunk_size)` bytes from the file and emit a `u32`
big-endian length frame followed by those bytes.  `content` is what the
file delivers; a short read fails the stream. -/
def sendChunks (chunkSize : Nat) (hcs : 0 < chunkSize) :
    List Nat → Nat → Except SessErr (List Nat)
  | content, remaining =>
    if hrem : 0 < remaining then
      match takeExact (min remaining chunkSize) content with
      | none => Except.error SessErr.ioError
      | some (chunk, content') =>
          match sendChunks chunkSize hcs content' (remaining - min remaining chunkSize) with
          | Except.error e => Except.error e
          | Except.ok out => Except.ok (beBytes 4 (min remaining chunkSize) ++ chunk ++ out)
    else Except.ok []
termination_by _ remaining => remaining
decreasing_by omega

/-- `net::Session::sendFile`: reject `chunk_size == 0` or above the
limit, open the file, write the 8-byte big-endian header length and the
header (`string rel_path`, `u64 file_size` via the wire codec), then
stream the chunks.  No try/catch — `close()` is never called, so the
closed flag is false on every path, error or success. -/
def sendFileM (node : Node) (chunkSize : Nat)
    (fileOpenOk : Bool) (content : List Nat) :
    Except SessErr (List Nat) × Bool :=
  if hcs : chunkSize = 0 ∨ chunkSize > MAX_FILE_CHUNK_SIZE then
    (Except.error SessErr.badChunkSize, false)
  else if fileOpenOk = false then (Except.error SessErr.openFail, false)
  else
    let header := writeString node.path ++ leBytes 8 node.fsize
    match sendChunks chunkSize (by omega) content node.fsize with
    | Except.error e => (Except.error e, false)
    | Except.ok chunks =>
        (Except.ok (beBytes 8 header.length ++ header ++ chunks), false)

theorem receiveTreeM_ok_of_not_closed (input : List Nat)
    (h : (receiveTreeM input).2 = false) :
    ∃ t, (receiveTreeM input).1 = Except.ok t := by
  unfold receiveTreeM at h ⊢
  repeat' split at h
  all_goals try simp_all
  all_goals rw [if_neg (by omega)]
  all_goals exact ⟨_, rfl⟩

theorem receiveFileM_not_closed (input : List Nat) :
    (receiveFileM input).2 = false := by
  unfold receiveFileM
  repeat' split
  all_goals rfl

theorem sendFileM_not_closed (node : Node) (chunkSize : Nat)
    (fileOpenOk : Bool) (content : List Nat) :
    (sendFileM node chunkSize fileOpenOk content).2 = false := by
  unfold sendFileM
  repeat' split
  all_goals rfl

/-- C7 counterexample: `receiveFile` hit by an oversized header length
aborts with a size-limit error yet does not close the session —
`sendFile` and `receiveFile` have no try/catch and never call
`close()` — contradicting the claim that every erroring session
operation closes the session before the error propagates. -/
theorem C7_no_close_counterexample :
    receiveFileM (beBytes 8 (MAX_FILE_CHUNK_SIZE + 1)) =
      (Except.error SessErr.sizeLimit, false) := by
  have h := readBE_beBytes 8 (MAX_FILE_CHUNK_SIZE + 1) []
    (by norm_num [MAX_FILE_CHUNK_SIZE])
  rw [List.append_nil] at h
  unfold receiveFileM
  rw [h]
  simp [MAX_FILE_CHUNK_SIZE]

/-- C7 amended: only the tree operations abort-and-close.  `sendTree`
and `receiveTree` close the session on every error before it
propagates; `sendFile` and `receiveFile` propagate their errors without
ever closing the session. -/
theorem C7_close_on_error_tree_ops_only :
    (∀ t writeOk e, (sendTreeM t writeOk).1 = Except.error e →
      (sendTreeM t writeOk).2 = true) ∧
    (∀ input e, (receiveTreeM input).1 = Except.error e →
      (receiveTreeM input).2 = true) ∧
    (∀ node chunkSize fileOpenOk content,
      (sendFileM node chunkSize fileOpenOk content).2 = false) ∧
    (∀ input, (receiveFileM input).2 = false) := by
  refine ⟨?_, ?_, sendFileM_not_closed, receiveFileM_not_closed⟩
  · intro t writeOk e h
    cases writeOk
    · rfl
    · simp [sendTreeM] at h
  · intro input e h
    cases hb : (receiveTreeM input).2
    · obtain ⟨t, ht⟩ := receiveTreeM_ok_of_not_closed input hb
      rw [ht] at h
      cases h
    · rfl

/-- C7 witness: concrete error paths — a failed `sendTree` write and a
truncated `receiveTree` stream close the session; `sendFile` and
`receiveFile` leave it open on all inputs shown. -/
theorem C7_close_on_error_tree_ops_only_witness :
    (sendTreeM ⟨[], Node.dir [] [] 0 []⟩ false).2 = true ∧
    (receiveTreeM []).2 = true ∧
    (sendFileM (Node.file [97] [97] 0 0 none) 1 true []).2 = false ∧
    (receiveFileM []).2 = false := by
  refine ⟨C7_close_on_error_tree_ops_only.1 ⟨[], Node.dir [] [] 0 []⟩ false
      SessErr.ioError rfl,
    C7_close_on_error_tree_ops_only.2.1 [] SessErr.ioError rfl,
    C7_close_on_error_tree_ops_only.2.2.1 (Node.file [97] [97] 0 0 none) 1
      true [],
    C7_close_on_error_tree_ops_only.2.2.2 []⟩

/-- C8: size limits are enforced before payload consumption.  A tree
message declaring more than 64 MiB is rejected (with the session
closed) right after the 8-byte length prefix, independent of whatever
bytes follow; a file chunk declaring more than 64 MiB, or zero, is
rejected right after its 4-byte length frame, independent of whatever
bytes follow. -/
theorem C8_size_limits (size clen fs received : Nat) (tail w : List Nat)
    (hsize : size > MAX_TREE_SIZE) (hsz64 : size < 2 ^ 64)
    (hclen : clen > MAX_FILE_CHUNK_SIZE ∨ clen = 0) (hcl32 : clen < 2 ^ 32)
    (hrec : received < fs) :
    receiveTreeM (beBytes 8 size ++ tail) =
      (Except.error SessErr.sizeLimit, true) ∧
    chunkLoop fs received (beBytes 4 clen ++ tail) w =
      Except.error SessErr.sizeLimit := by
  have h8 : size < 256 ^ 8 := by
    have : (256 : Nat) ^ 8 = 2 ^ 64 := by norm_num
    omega
  have h4 : clen < 256 ^ 4 := by
    have : (256 : Nat) ^ 4 = 2 ^ 32 := by norm_num
    omega
  constructor
  · unfold receiveTreeM
    rw [readBE_beBytes 8 size tail h8]
    simp [hsize]
  · unfold chunkLoop
    rw [dif_pos hrec, readBE_beBytes 4 clen tail h4]
    simp [hclen]

/-- C8 witness: a tree frame declaring `64 MiB + 1` and a chunk frame
declaring zero are both rejected at the length frame. -/
theorem C8_size_limits_witness :
    receiveTreeM (beBytes 8 (MAX_TREE_SIZE + 1)) =
      (Except.error SessErr.sizeLimit, true) ∧
    chunkLoop 1 0 (beBytes 4 0) [] = Except.error SessErr.sizeLimit := by
  have h := C8_size_limits (MAX_TREE_SIZE + 1) 0 1 0 [] []
    (by norm_num [MAX_TREE_SIZE]) (by norm_num [MAX_TREE_SIZE])
    (Or.inr rfl) (by norm_num) (by norm_num)
  refine ⟨?_, ?_⟩
  · have h1 := h.1
    rwa [List.append_nil] at h1
  · have h2 := h.2
    rwa [List.append_nil] at h2

theorem takeExact_length (k : Nat) (bs c r : List Nat)
    (h : takeExact k bs = some (c, r)) : c.length = k := by
  unfold takeExact at h
  split at h
  · cases h
    simp [List.length_take]
    omega
  · cases h

theorem chunkLoop_stop (fs received : Nat) (input w : List Nat)
    (h : fs ≤ received) : chunkLoop fs received input w = Except.ok (w, input) := by
  unfold chunkLoop
  rw [dif_neg (by omega)]

theorem chunkLoop_written_ge (k : Nat) :
    ∀ fs received input w w' r, fs - received ≤ k →
      chunkLoop fs received input w = Except.ok (w', r) →
      fs + w.length ≤ w'.length + received := by
  induction k with
  | zero =>
      intro fs received input w w' r hk h
      rw [chunkLoop_stop fs received input w (by omega)] at h
      cases h
      omega
  | succ k ih =>
      intro fs received input w w' r hk h
      by_cases hrec : received < fs
      · unfold chunkLoop at h
        rw [dif_pos hrec] at h
        cases hr : readBE 4 input with
        | none => rw [hr] at h; cases h
        | some p =>
            obtain ⟨clen, rest⟩ := p
            rw [hr] at h
            dsimp only at h
            by_cases hbad : clen > MAX_FILE_CHUNK_SIZE ∨ clen = 0
            · rw [dif_pos hbad] at h
              cases h
            · rw [dif_neg hbad] at h
              cases ht : takeExact clen rest with
              | none => rw [ht] at h; cases h
              | some q =>
                  obtain ⟨chunk, rest'⟩ := q
                  rw [ht] at h
                  dsimp only at h
                  have hclen : 1 ≤ clen := by
                    simp only [not_or] at hbad
                    omega
                  have hlen := takeExact_length clen rest chunk rest' ht
                  have := ih fs (received + clen) rest' (w ++ chunk) w' r
                    (by omega) h
                  simp only [List.length_append, hlen] at this
                  omega
      · rw [chunkLoop_stop fs received input w (by omega)] at h
        cases h
        omega

/-- The stream for the C10 witness: a file header declaring
`rel_path = "p"` and `file_size = 1`, followed by one chunk that
declares and carries 2 bytes. -/
def c10Hdr : List Nat := writeString [112] ++ leBytes 8 1

def c10Input : List Nat := beBytes 8 13 ++ (c10Hdr ++ (beBytes 4 2 ++ [5, 6]))

theorem chunkLoop_c10_eval :
    chunkLoop 1 0 (beBytes 4 2 ++ [5, 6]) [] = Except.ok ([5, 6], []) := by
  unfold chunkLoop
  rw [dif_pos (by omega), readBE_beBytes 4 2 _ (by norm_num)]
  dsimp only
  rw [dif_neg (by norm_num [MAX_FILE_CHUNK_SIZE])]
  have ht : takeExact 2 [5, 6] = some ([5, 6], []) := rfl
  rw [ht]
  dsimp only
  simpa using chunkLoop_stop 1 2 [] [5, 6] (by omega)

/-- C10: the chunk loop of `receiveFile` stops as soon as the running
total of declared chunk lengths reaches or exceeds the header's
`file_size`, writing every byte of every accepted chunk, and it never
verifies that the total equals `file_size`: on success the bytes
written are at least `file_size` and can exceed it — as on the
concrete stream whose single 2-byte chunk answers a 1-byte header,
which succeeds and writes 2 bytes. -/
theorem C10_receiveFile_overshoot :
    (∀ fs input w' r, chunkLoop fs 0 input [] = Except.ok (w', r) →
      fs ≤ w'.length) ∧
    (∀ fs received input w, fs ≤ received →
      chunkLoop fs received input w = Except.ok (w, input)) ∧
    receiveFileM c10Input = (Except.ok ([112], 1, [5, 6]), false) := by
  refine ⟨?_, chunkLoop_stop, ?_⟩
  · intro fs input w' r h
    have := chunkLoop_written_ge fs fs 0 input [] w' r le_rfl h
    simpa using this
  · have hhdr : c10Hdr.length = 13 := by
      simp [c10Hdr, writeString, leBytes_length]
    have hchunk := chunkLoop_c10_eval
    unfold receiveFileM c10Input
    rw [readBE_beBytes 8 13 _ (by norm_num)]
    dsimp only
    rw [if_neg (by norm_num [MAX_FILE_CHUNK_SIZE])]
    rw [takeExact_append 13 c10Hdr _ hhdr]
    dsimp only
    simp only [c10Hdr, List.append_assoc]
    rw [readString_writeString [112] _ (by norm_num)]
    dsimp only
    have h1 : readLE 8 (leBytes 8 1) = some (1, []) := by
      have := readLE_leBytes 8 1 [] (by norm_num)
      rwa [List.append_nil] at this
    rw [h1]
    dsimp only
    rw [hchunk]

/-- C10 witness: the general bounds applied to the concrete overshooting
stream — the 2-byte chunk satisfying the 1-byte header yields at least
(here: more than) `file_size` bytes, and a loop entered with the total
already met returns at once. -/
theorem C10_receiveFile_overshoot_witness :
    (1 : Nat) ≤ ([5, 6] : List Nat).length ∧
    chunkLoop 1 2 [] [5, 6] = Except.ok ([5, 6], []) :=
  ⟨C10_receiveFile_overshoot.1 1 (beBytes 4 2 ++ [5, 6]) [5, 6] []
      chunkLoop_c10_eval,
    C10_receiveFile_overshoot.2.1 1 2 [] [5, 6] (by omega)⟩

/-! ## Per-session mutual exclusion (C9)

Each session operation is abstracted to its sequence of scheduler-visible
actions, read off the source: `busy_.exchange(true)` loops become
`acquire` (which blocks while the flag is held), `busy_.store(false)`
becomes `release`, and each `co_await async_read`/`async_write` on the
socket becomes an `io` step at which the coroutine suspends and another
coroutine on the same strand may run.  `sendTree` and `receiveTree`
acquire the busy flag around their I/O; `sendFile` and `receiveFile`
contain no `busy_` access at all. -/

inductive SessAct where
  | acquire
  | release
  | io (tag : Nat)
deriving DecidableEq, Repr

/-- `net::Session::sendTree`: busy acquisition, one gathered
`async_write` (length prefix + payload), busy release. -/
def sendTreeActs : List SessAct := [.acquire, .io 0, .release]

/-- `net::Session::receiveTree`: busy acquisition, `async_read` of the
size, `async_read` of the payload, busy release. -/
def receiveTreeActs : List SessAct := [.acquire, .io 0, .io 1, .release]

/-- Per chunk: a length-frame transfer and a data transfer. -/
def chunkActs : Nat → List SessAct
  | 0 => []
  | n + 1 => .io 2 :: .io 3 :: chunkActs n

/-- `net::Session::sendFile` with `n` chunks: header-length write,
header write, then the chunk writes — no busy acquisition anywhere. -/
def sendFileActs (n : Nat) : List SessAct := .io 0 :: .io 1 :: chunkActs n

/-- `net::Session::receiveFile` with `n` chunks: header-length read,
header read, then the chunk reads — no busy acquisition anywhere. -/
def receiveFileActs (n : Nat) : List SessAct := .io 0 :: .io 1 :: chunkActs n

/-- Two coroutines on one session: the actions each still has to run,
the `busy_` flag, and the trace of completed socket transfers, recorded
by owner (`false` = first coroutine, `true` = second). -/
structure MState where
  r0 : List SessAct
  r1 : List SessAct
  busy : Bool
  tr : List Bool

def setRem (s : MState) (who : Bool) (rest : List SessAct) : MState :=
  if who then ⟨s.r0, rest, s.busy, s.tr⟩ else ⟨rest, s.r1, s.busy, s.tr⟩

/-- One cooperative step of the chosen coroutine: an `acquire` against a
held flag re-posts and makes no progress (the spin-yield loop); an
`acquire` against a free flag takes it; `release` frees it; `io` puts
one transfer on the socket. -/
def step (s : MState) (who : Bool) : MState :=
  match if who then s.r1 else s.r0 with
  | [] => s
  | SessAct.acquire :: rest =>
      if s.busy then s
      else
        let s' := setRem s who rest
        ⟨s'.r0, s'.r1, true, s'.tr⟩
  | SessAct.release :: rest =>
      let s' := setRem s who rest
      ⟨s'.r0, s'.r1, false, s'.tr⟩
  | SessAct.io _ :: rest =>
      let s' := setRem s who rest
      ⟨s'.r0, s'.r1, s'.busy, s'.tr ++ [who]⟩

/-- Run a schedule (an arbitrary interleaving chosen by the executor). -/
def run (s : MState) : List Bool → MState
  | [] => s
  | who :: sched => run (step s who) sched

def initState (a b : List SessAct) : MState := ⟨a, b, false, []⟩

/-- A trace does not interleave: it is one owner's block followed by
the other owner's block. -/
def blockFormAux (a : Bool) : List Bool → Bool
  | [] => true
  | b :: l => if b == a then blockFormAux a l else l.all (· == b)

def blockForm : List Bool → Bool
  | [] => true
  | a :: l => blockFormAux a l

/-- C9 counterexample: a `receiveTree` and a `receiveFile` invoked
concurrently on one session.  `receiveTree` acquires the busy flag and
reads the size; `receiveFile`, which never touches the flag, then reads
from the same socket; `receiveTree` reads again.  The byte streams of
the two operations interleave while the flag is held, refuting the
claimed mutual exclusion of the four operations. -/
theorem C9_interleaving_counterexample :
    blockForm (run (initState receiveTreeActs (receiveFileActs 1))
      [false, false, true, false]).tr = false := rfl

/-- The suffix of a guarded operation while it holds the busy flag:
socket transfers followed by the release. -/
def holdShape : List SessAct → Bool
  | [SessAct.release] => true
  | SessAct.io _ :: l => holdShape l
  | _ => false

/-- A guarded operation before entry: the acquire, then transfers, then
the release. -/
def preShape : List SessAct → Bool
  | SessAct.acquire :: l => holdShape l
  | _ => false

theorem hold_not_pre (l : List SessAct) (h : holdShape l = true) :
    preShape l = false := by
  cases l with
  | nil => rfl
  | cons a rest => cases a <;> simp_all [preShape, holdShape]

theorem pre_not_hold (l : List SessAct) (h : preShape l = true) :
    holdShape l = false := by
  cases l with
  | nil => rfl
  | cons a rest => cases a <;> simp_all [preShape, holdShape]

theorem holdShape_release_cons (rest : List SessAct)
    (h : holdShape (SessAct.release :: rest) = true) : rest = [] := by
  cases rest with
  | nil => rfl
  | cons b l => simp [holdShape] at h

theorem all_eq_replicate (v : Bool) :
    ∀ l : List Bool, l.all (· == v) = true → l = List.replicate l.length v := by
  intro l
  induction l with
  | nil => intro _; rfl
  | cons b l ih =>
      intro h
      simp only [List.all_cons, Bool.and_eq_true, beq_iff_eq] at h
      rw [List.length_cons, List.replicate_succ, h.1]
      exact congrArg (List.cons v) (ih h.2)

theorem all_replicate (v : Bool) (k : Nat) :
    (List.replicate k v).all (· == v) = true := by
  induction k with
  | zero => rfl
  | succ k ih => simp [List.replicate_succ, ih]

theorem blockFormAux_self (a : Bool) (m : Nat) :
    blockFormAux a (List.replicate m a) = true := by
  induction m with
  | zero => rfl
  | succ m ih => simp [List.replicate_succ, blockFormAux, ih]

theorem blockFormAux_rep_rep (a b : Bool) (m k : Nat) :
    blockFormAux a (List.replicate m a ++ List.replicate k b) = true := by
  induction m with
  | zero =>
      simp only [List.replicate, List.nil_append]
      cases k with
      | zero => rfl
      | succ k =>
          simp only [List.replicate_succ, blockFormAux]
          by_cases hab : b = a
          · subst hab
            rw [if_pos (by simp)]
            exact blockFormAux_self b k
          · rw [if_neg (by simpa using hab)]
            exact all_replicate b k
  | succ m ih =>
      simpa [List.replicate_succ, blockFormAux] using ih

theorem blockForm_rep_rep (a b : Bool) (m k : Nat) :
    blockForm (List.replicate m a ++ List.replicate k b) = true := by
  cases m with
  | zero =>
      simp only [List.replicate, List.nil_append]
      cases k with
      | zero => rfl
      | succ k =>
          simp only [List.replicate_succ, blockForm]
          exact blockFormAux_self b k
  | succ m =>
      simp only [List.replicate_succ, List.cons_append, blockForm]
      exact blockFormAux_rep_rep a b m k

/-- The serialization invariant for two guarded operations on one
session: thread shapes, busy-flag consistency, at most one holder,
trace composition, and absence of interleaving. -/
structure SessInv (s : MState) : Prop where
  shape0 : preShape s.r0 = true ∨ holdShape s.r0 = true ∨ s.r0 = []
  shape1 : preShape s.r1 = true ∨ holdShape s.r1 = true ∨ s.r1 = []
  busyEq : s.busy = (holdShape s.r0 || holdShape s.r1)
  pre0tr : preShape s.r0 = true → s.tr.all (· == true) = true
  pre1tr : preShape s.r1 = true → s.tr.all (· == false) = true
  hold0tr : holdShape s.r0 = true →
    ∃ m k, s.tr = List.replicate m true ++ List.replicate k false
  hold1tr : holdShape s.r1 = true →
    ∃ m k, s.tr = List.replicate m false ++ List.replicate k true
  notBoth : (holdShape s.r0 && holdShape s.r1) = false
  noMix : blockForm s.tr = true

theorem step_inv (s : MState) (who : Bool) (h : SessInv s) :
    SessInv (step s who) := by
  obtain ⟨r0, r1, busy, tr⟩ := s
  cases who with
  | false =>
      cases r0 with
      | nil => exact h
      | cons a rest =>
          cases a with
          | acquire =>
              have hpre : preShape (SessAct.acquire :: rest) = true := by
                rcases h.shape0 with hp | hh | hnil
                · exact hp
                · simp [holdShape] at hh
                · exact absurd hnil (by simp)
              have hhrest : holdShape rest = true := by
                simpa [preShape] using hpre
              cases busy with
              | true => exact h
              | false =>
                  have hor : (holdShape (SessAct.acquire :: rest) ||
                      holdShape r1) = false := h.busyEq.symm
                  have hold1f : holdShape r1 = false := by
                    cases hx : holdShape r1
                    · rfl
                    · rw [hx] at hor
                      simp at hor
                  show SessInv ⟨rest, r1, true, tr⟩
                  refine ⟨Or.inr (Or.inl hhrest), h.shape1, ?_, ?_, h.pre1tr,
                    ?_, ?_, ?_, h.noMix⟩
                  · show true = (holdShape rest || holdShape r1)
                    rw [hhrest]
                    rfl
                  · intro hp
                    rw [hold_not_pre rest hhrest] at hp
                    exact Bool.noConfusion hp
                  · intro _
                    refine ⟨tr.length, 0, ?_⟩
                    simpa using all_eq_replicate true tr (h.pre0tr hpre)
                  · intro h1
                    rw [hold1f] at h1
                    exact Bool.noConfusion h1
                  · show (holdShape rest && holdShape r1) = false
                    rw [hhrest, hold1f]
                    rfl
          | release =>
              have hhold : holdShape (SessAct.release :: rest) = true := by
                rcases h.shape0 with hp | hh | hnil
                · simp [preShape] at hp
                · exact hh
                · exact absurd hnil (by simp)
              have hrest : rest = [] := holdShape_release_cons rest hhold
              subst hrest
              have hold1f : holdShape r1 = false := by
                have hnb := h.notBoth
                rw [hhold] at hnb
                simpa using hnb
              show SessInv ⟨[], r1, false, tr⟩
              refine ⟨Or.inr (Or.inr rfl), h.shape1, ?_, ?_, h.pre1tr,
                ?_, ?_, ?_, h.noMix⟩
              · show false = (holdShape ([] : List SessAct) || holdShape r1)
                simp [holdShape, hold1f]
              · intro hp
                simp [preShape] at hp
              · intro hh
                simp [holdShape] at hh
              · intro h1
                rw [hold1f] at h1
                exact Bool.noConfusion h1
              · show (holdShape ([] : List SessAct) && holdShape r1) = false
                simp [holdShape]
          | io t =>
              have hhold : holdShape (SessAct.io t :: rest) = true := by
                rcases h.shape0 with hp | hh | hnil
                · simp [preShape] at hp
                · exact hh
                · exact absurd hnil (by simp)
              have hhrest : holdShape rest = true := by
                simpa [holdShape] using hhold
              have hold1f : holdShape r1 = false := by
                have hnb := h.notBoth
                rw [hhold] at hnb
                simpa using hnb
              obtain ⟨m, k, htr⟩ := h.hold0tr hhold
              dsimp only at htr
              show SessInv ⟨rest, r1, busy, tr ++ [false]⟩
              refine ⟨Or.inr (Or.inl hhrest), h.shape1, ?_, ?_, ?_, ?_, ?_,
                ?_, ?_⟩
              · show busy = (holdShape rest || holdShape r1)
                have hbeq := h.busyEq
                dsimp only at hbeq
                rw [hbeq, hhold, hhrest]
              · intro hp
                rw [hold_not_pre rest hhrest] at hp
                exact Bool.noConfusion hp
              · intro hp1
                have hall := h.pre1tr hp1
                dsimp only at hall
                show ((tr ++ [false]).all fun x => x == false) = true
                rw [List.all_append, hall]
                rfl
              · intro _
                refine ⟨m, k + 1, ?_⟩
                show tr ++ [false] = _
                rw [htr, List.append_assoc]
                congr 1
                exact (List.replicate_succ' k false).symm
              · intro h1
                rw [hold1f] at h1
                exact Bool.noConfusion h1
              · show (holdShape rest && holdShape r1) = false
                rw [hhrest, hold1f]
                rfl
              · show blockForm (tr ++ [false]) = true
                rw [htr, List.append_assoc]
                have hrep : List.replicate k false ++ [false] =
                    List.replicate (k + 1) false :=
                  (List.replicate_succ' k false).symm
                rw [hrep]
                exact blockForm_rep_rep true false m (k + 1)
  | true =>
      cases r1 with
      | nil => exact h
      | cons a rest =>
          cases a with
          | acquire =>
              have hpre : preShape (SessAct.acquire :: rest) = true := by
                rcases h.shape1 with hp | hh | hnil
                · exact hp
                · simp [holdShape] at hh
                · exact absurd hnil (by simp)
              have hhrest : holdShape rest = true := by
                simpa [preShape] using hpre
              cases busy with
              | true => exact h
              | false =>
                  have hor : (holdShape r0 ||
                      holdShape (SessAct.acquire :: rest)) = false := h.busyEq.symm
                  have hold0f : holdShape r0 = false := by
                    cases hx : holdShape r0
                    · rfl
                    · rw [hx] at hor
                      simp at hor
                  show SessInv ⟨r0, rest, true, tr⟩
                  refine ⟨h.shape0, Or.inr (Or.inl hhrest), ?_, h.pre0tr, ?_,
                    ?_, ?_, ?_, h.noMix⟩
                  · show true = (holdShape r0 || holdShape rest)
                    rw [hhrest, hold0f]
                    rfl
                  · intro hp
                    rw [hold_not_pre rest hhrest] at hp
                    exact Bool.noConfusion hp
                  · intro h0
                    rw [hold0f] at h0
                    exact Bool.noConfusion h0
                  · intro _
                    refine ⟨tr.length, 0, ?_⟩
                    simpa using all_eq_replicate false tr (h.pre1tr hpre)
                  · show (holdShape r0 && holdShape rest) = false
                    rw [hhrest, hold0f]
                    rfl
          | release =>
              have hhold : holdShape (SessAct.release :: rest) = true := by
                rcases h.shape1 with hp | hh | hnil
                · simp [preShape] at hp
                · exact hh
                · exact absurd hnil (by simp)
              have hrest : rest = [] := holdShape_release_cons rest hhold
              subst hrest
              have hold0f : holdShape r0 = false := by
                have hnb := h.notBoth
                rw [hhold] at hnb
                simpa using hnb
              show SessInv ⟨r0, [], false, tr⟩
              refine ⟨h.shape0, Or.inr (Or.inr rfl), ?_, h.pre0tr, ?_,
                ?_, ?_, ?_, h.noMix⟩
              · show false = (holdShape r0 || holdShape ([] : List SessAct))
                simp [holdShape, hold0f]
              · intro hp
                simp [preShape] at hp
              · intro h0
                rw [hold0f] at h0
                exact Bool.noConfusion h0
              · intro hh
                simp [holdShape] at hh
              · show (holdShape r0 && holdShape ([] : List SessAct)) = false
                simp [holdShape]
          | io t =>
              have hhold : holdShape (SessAct.io t :: rest) = true := by
                rcases h.shape1 with hp | hh | hnil
                · simp [preShape] at hp
                · exact hh
                · exact absurd hnil (by simp)
              have hhrest : holdShape rest = true := by
                simpa [holdShape] using hhold
              have hold0f : holdShape r0 = false := by
                have hnb := h.notBoth
                rw [hhold] at hnb
                simpa using hnb
              obtain ⟨m, k, htr⟩ := h.hold1tr hhold
              dsimp only at htr
              show SessInv ⟨r0, rest, busy, tr ++ [true]⟩
              refine ⟨h.shape0, Or.inr (Or.inl hhrest), ?_, ?_, ?_, ?_, ?_,
                ?_, ?_⟩
              · show busy = (holdShape r0 || holdShape rest)
                have hbeq := h.busyEq
                dsimp only at hbeq
                rw [hbeq, hhold, hhrest]
              · intro hp0
                have hall := h.pre0tr hp0
                dsimp only at hall
                show ((tr ++ [true]).all fun x => x == true) = true
                rw [List.all_append, hall]
                rfl
              · intro hp
                rw [hold_not_pre rest hhrest] at hp
                exact Bool.noConfusion hp
              · intro h0
                rw [hold0f] at h0
                exact Bool.noConfusion h0
              · intro _
                refine ⟨m, k + 1, ?_⟩
                show tr ++ [true] = _
                rw [htr, List.append_assoc]
                congr 1
                exact (List.replicate_succ' k true).symm
              · show (holdShape r0 && holdShape rest) = false
                rw [hhrest, hold0f]
                rfl
              · show blockForm (tr ++ [true]) = true
                rw [htr, List.append_assoc]
                have hrep : List.replicate k true ++ [true] =
                    List.replicate (k + 1) true :=
                  (List.replicate_succ' k true).symm
                rw [hrep]
                exact blockForm_rep_rep false true m (k + 1)

theorem run_inv (sched : List Bool) :
    ∀ s, SessInv s → SessInv (run s sched) := by
  induction sched with
  | nil => intro s h; exact h
  | cons who sched ih => intro s h; exact ih (step s who) (step_inv s who h)

/-- C9 amended: the two busy-flag-guarded operations — `sendTree` and
`receiveTree` — are mutually exclusive with each other: under every
cooperative schedule their socket transfers form two contiguous blocks,
never interleaving.  (`sendFile` and `receiveFile` acquire nothing; the
counterexample shows their transfers interleave with a concurrent
operation.) -/
theorem C9_tree_ops_serialize (a b : List SessAct) (sched : List Bool)
    (ha : a = sendTreeActs ∨ a = receiveTreeActs)
    (hb : b = sendTreeActs ∨ b = receiveTreeActs) :
    blockForm (run (initState a b) sched).tr = true := by
  have hpa : preShape a = true := by rcases ha with rfl | rfl <;> rfl
  have hpb : preShape b = true := by rcases hb with rfl | rfl <;> rfl
  have hinit : SessInv (initState a b) := by
    show SessInv ⟨a, b, false, []⟩
    refine ⟨Or.inl hpa, Or.inl hpb, ?_, ?_, ?_, ?_, ?_, ?_, rfl⟩
    · show false = (holdShape a || holdShape b)
      rw [pre_not_hold a hpa, pre_not_hold b hpb]
      rfl
    · intro _; rfl
    · intro _; rfl
    · intro hh
      rw [pre_not_hold a hpa] at hh
      exact Bool.noConfusion hh
    · intro hh
      rw [pre_not_hold b hpb] at hh
      exact Bool.noConfusion hh
    · rw [pre_not_hold a hpa, pre_not_hold b hpb]
      rfl
  exact (run_inv sched (initState a b) hinit).noMix

/-- C9 witness: a concrete alternating schedule of a `sendTree` and a
`receiveTree` on one session leaves a non-interleaved trace. -/
theorem C9_tree_ops_serialize_witness :
    blockForm (run (initState sendTreeActs receiveTreeActs)
      [true, false, true, false, true, true, false, false]).tr = true :=
  C9_tree_ops_serialize sendTreeActs receiveTreeActs
    [true, false, true, false, true, true, false, false]
    (Or.inl rfl) (Or.inr rfl)

end FileSync
